import Mathlib

/-!
# CPE URI names (`src/CPE/cpeuri.c`)

A shallow embedding of the CPE URI parser, matcher and serializer of
`cpeuri.c`, and theorems about it.

Conventions of the embedding.

* A C string (`char *`) is the list of its characters before the terminating
  NUL; a `NULL` pointer is `none`.  A NULL-terminated array of strings
  (`char **`) is the list of its entries before the terminating `NULL`.
* A buffer that may hold NUL bytes in the middle (the output of
  `cpe_urldecode`) is read back as a C string through `cstr`.
* `malloc`, `realloc` and `strdup` are assumed to succeed.
* A function that can dereference `NULL` or read outside an array returns an
  `Option` whose `none` is that memory fault.
-/

namespace CpeUri

/-! ## C library -/

/-- A C string: the characters before the terminating NUL. -/
abbrev CStr := List Char

/-- The NUL character. -/
def NUL : Char := Char.ofNat 0

/-- The C string held by a buffer: the characters before the first NUL. -/
def cstr (buf : List Char) : CStr := buf.takeWhile (fun c => c != NUL)

/-- `tolower` in the C locale. -/
def tolower (c : Char) : Char := c.toLower

/-- `toupper` in the C locale. -/
def toupper (c : Char) : Char := c.toUpper

/-- `isxdigit` in the C locale. -/
def isxdigit (c : Char) : Bool :=
  ('0' ≤ c && c ≤ '9') || ('a' ≤ c && c ≤ 'f') || ('A' ≤ c && c ≤ 'F')

/-- Value of a hexadecimal digit, as `sscanf` with `%x` reads it. -/
def hexval (c : Char) : Nat :=
  if '0' ≤ c && c ≤ '9' then c.toNat - 48
  else if 'a' ≤ c && c ≤ 'f' then c.toNat - 87
  else c.toNat - 55

/-- `strcmp`: only the sign of the result is specified. -/
def strcmp : CStr → CStr → Int
  | [], [] => 0
  | [], _ :: _ => -1
  | _ :: _, [] => 1
  | a :: as, b :: bs =>
    if a = b then strcmp as bs else if a.toNat < b.toNat then -1 else 1

/-- `strcasecmp`: `strcmp` on the lower-cased characters. -/
def strcasecmp : CStr → CStr → Int
  | [], [] => 0
  | [], _ :: _ => -1
  | _ :: _, [] => 1
  | a :: as, b :: bs =>
    if tolower a = tolower b then strcasecmp as bs
    else if (tolower a).toNat < (tolower b).toNat then -1 else 1

/-- `strsep(stringp, delim)` on a non-NULL `*stringp`: the token up to the
first delimiter, and the new `*stringp` (the text after that delimiter, or
`NULL` when no delimiter was found). -/
def strsep (delim : List Char) : CStr → CStr × Option CStr
  | [] => ([], none)
  | c :: cs =>
    if c ∈ delim then ([], some cs)
    else ((c :: (strsep delim cs).1), (strsep delim cs).2)

/-- `ptrarray_length`: number of entries before the terminating `NULL`,
and 0 for a `NULL` array. -/
def ptrarray_length {α : Type} (arr : Option (List α)) : Nat :=
  match arr with
  | none => 0
  | some l => l.length

/-! ## PCRE -/

/-- Regular expressions, as far as the pattern of `cpe_name_check` needs. -/
inductive Regex where
  | chr (c : Char)
  | cls (ranges : List (Char × Char))
  | seq (a b : Regex)
  | opt (a : Regex)
  | star (a : Regex)
  | rep (a : Regex) (lo hi : Nat)
  | bol
  | eol

/-- Membership of a character in a character class under `PCRE_CASELESS`. -/
def cls_match (ranges : List (Char × Char)) (d : Char) : Bool :=
  ranges.any (fun r =>
    (r.1 ≤ d && d ≤ r.2) || (r.1 ≤ tolower d && tolower d ≤ r.2)
      || (r.1 ≤ toupper d && toupper d ≤ r.2))

/-- Iterations of `a*`: every remainder reachable by repeating `step`. -/
def star_loop (step : List Char → List (List Char)) : Nat → List Char → List (List Char)
  | 0, s => [s]
  | fuel + 1, s => s :: (step s).flatMap (star_loop step fuel)

/-- Iterations of the bounded repeat: between `lo` and `lo + hi`-many more. -/
def rep_loop (step : List Char → List (List Char)) : Nat → Nat → List Char → List (List Char)
  | lo, 0, s => if lo = 0 then [s] else []
  | lo, hi + 1, s =>
    (if lo = 0 then [s] else []) ++ (step s).flatMap (rep_loop step (lo - 1) hi)

/-- Backtracking matcher under `PCRE_CASELESS` without `PCRE_MULTILINE` and
without `PCRE_DOLLAR_ENDONLY`, the newline being the line feed: all the
remainders of the subject that a match of the expression at the start of `s`
can leave.  `n` is the length of the whole subject.  `^` matches at the start
of the subject only; `$` matches at its end and before a line feed that is its
last character. -/
def pcre_match (n : Nat) : Regex → List Char → List (List Char)
  | .chr c, s =>
    match s with
    | d :: t => if tolower d = tolower c then [t] else []
    | [] => []
  | .cls ranges, s =>
    match s with
    | d :: t => if cls_match ranges d then [t] else []
    | [] => []
  | .seq a b, s => (pcre_match n a s).flatMap (pcre_match n b)
  | .opt a, s => pcre_match n a s ++ [s]
  | .star a, s => star_loop (pcre_match n a) s.length s
  | .rep a lo hi, s => rep_loop (pcre_match n a) lo hi s
  | .bol, s => if s.length = n then [s] else []
  | .eol, s => if s = [] ∨ s = ['\n'] then [s] else []

/-- `pcre_exec(...) >= 0`: the expression matches at some start offset. -/
def pcre_exec (re : Regex) (subject : List Char) : Bool :=
  subject.tails.any (fun t => !(pcre_match subject.length re t).isEmpty)

/-- Sequence of a list of expressions. -/
def Regex.seqs : List Regex → Regex → Regex
  | [], last => last
  | r :: rs, last => .seq r (Regex.seqs rs last)

/-- The class `[aho]`. -/
def CLS_PART : List (Char × Char) := [('a', 'a'), ('h', 'h'), ('o', 'o')]

/-- The class `[a-z0-9._~%-]`. -/
def CLS_FIELD : List (Char × Char) :=
  [('a', 'z'), ('0', '9'), ('.', '.'), ('_', '_'), ('~', '~'), ('%', '%'), ('-', '-')]

/-- The pattern `^cpe:/[aho]?(:[a-z0-9._~%-]*){0,6}$`. -/
def CPE_REGEX : Regex :=
  Regex.seqs
    [.bol, .chr 'c', .chr 'p', .chr 'e', .chr ':', .chr '/',
     .opt (.cls CLS_PART),
     .rep (.seq (.chr ':') (.star (.cls CLS_FIELD))) 0 6]
    .eol

/-! ## cpeuri.c -/

/-- Modelled from the spec: `enum cpe_part` of `cpeuri.h`, which is not among
the sources; its values index `CPE_PART_CHAR`, so the unspecified part is 0. -/
inductive cpe_part where
  | CPE_PART_NONE
  | CPE_PART_HW
  | CPE_PART_OS
  | CPE_PART_APP
  deriving DecidableEq, Repr

open cpe_part

/-- The structure `struct cpe_name`; `data_` only backs `fields_`. -/
structure cpe_name where
  fields_ : Option (List CStr)
  part : cpe_part
  vendor : Option CStr
  product : Option CStr
  version : Option CStr
  update : Option CStr
  edition : Option CStr
  language : Option CStr
  deriving DecidableEq, Repr

/-- The table `CPE_PART_CHAR`. -/
def CPE_PART_CHAR : cpe_part → Option CStr
  | CPE_PART_NONE => none
  | CPE_PART_HW => some ['h']
  | CPE_PART_OS => some ['o']
  | CPE_PART_APP => some ['a']

/-- The constant `CPE_SCHEMA`. -/
def CPE_SCHEMA : CStr := ['c', 'p', 'e', ':', '/']

/-- The constant `CPE_FIELDNUM`. -/
def CPE_FIELDNUM : Nat := 7

/-- The function `cpe_name_check`. -/
def cpe_name_check (str : CStr) : Bool := pcre_exec CPE_REGEX str

/-- Loop of `cpe_split`: `fields[i++] = strsep(stringp, delim)` while
`*stringp` is not `NULL`. -/
def cpe_split_loop (delim : List Char) : Nat → Option CStr → List CStr
  | 0, _ => []
  | _ + 1, none => []
  | fuel + 1, some s => (strsep delim s).1 :: cpe_split_loop delim fuel (strsep delim s).2

/-- The function `cpe_split`. -/
def cpe_split (str : CStr) (delim : List Char) : List CStr :=
  cpe_split_loop delim (str.length + 1) (some str)

/-- Loop of `cpe_urldecode`: `inp` is the text at `inptr`, `out` the bytes
written so far.  The result is the return value and the bytes in the buffer
before the final terminator. -/
def cpe_urldecode_loop : List Char → List Char → Bool × List Char
  | [], out => (true, out)
  | c :: rest, out =>
    if c = '%' then
      match rest with
      | x :: y :: rest2 =>
        if isxdigit x && isxdigit y then
          cpe_urldecode_loop rest2 (out ++ [Char.ofNat (16 * hexval x + hexval y)])
        else (false, out)
      | _ => (false, out)
    else cpe_urldecode_loop rest (out ++ [c])

/-- The function `cpe_urldecode`. -/
def cpe_urldecode (str : CStr) : Bool × List Char := cpe_urldecode_loop str []

/-- The value `out` of `cpe_assign_values`: `NULL` for an empty field. -/
def field_out (f : CStr) : Option CStr := if strcmp f [] != 0 then some f else none

/-- Loop of `cpe_assign_values` from index `i` on. -/
def cpe_assign_values_loop : List CStr → Nat → cpe_name → Bool × cpe_name
  | [], _, cpe => (true, cpe)
  | f :: rest, i, cpe =>
    match i with
    | 0 =>
      match field_out f with
      | some out =>
        if strcasecmp out ['h'] == 0 then
          cpe_assign_values_loop rest (i + 1) { cpe with part := CPE_PART_HW }
        else if strcasecmp out ['o'] == 0 then
          cpe_assign_values_loop rest (i + 1) { cpe with part := CPE_PART_OS }
        else if strcasecmp out ['a'] == 0 then
          cpe_assign_values_loop rest (i + 1) { cpe with part := CPE_PART_APP }
        else (false, cpe)
      | none => (false, cpe)
    | 1 => cpe_assign_values_loop rest (i + 1) { cpe with vendor := field_out f }
    | 2 => cpe_assign_values_loop rest (i + 1) { cpe with product := field_out f }
    | 3 => cpe_assign_values_loop rest (i + 1) { cpe with version := field_out f }
    | 4 => cpe_assign_values_loop rest (i + 1) { cpe with update := field_out f }
    | 5 => cpe_assign_values_loop rest (i + 1) { cpe with edition := field_out f }
    | 6 => cpe_assign_values_loop rest (i + 1) { cpe with language := field_out f }
    | 7 => (false, cpe)
    | _ => cpe_assign_values_loop rest (i + 1) cpe

/-- The function `cpe_assign_values`: the return value and the structure. -/
def cpe_assign_values (cpe : Option cpe_name) (fields : Option (List CStr)) :
    Bool × Option cpe_name :=
  match cpe, fields with
  | some c, some fs => ((cpe_assign_values_loop fs 0 c).1, some (cpe_assign_values_loop fs 0 c).2)
  | _, _ => (false, cpe)

/-- The zeroed structure after `memset`. -/
def cpe_name_zero : cpe_name :=
  { fields_ := none, part := CPE_PART_NONE, vendor := none, product := none,
    version := none, update := none, edition := none, language := none }

/-- The array `fields_` that `cpe_name_new` builds: `data_` is the text after
`cpe:/`, split at `:`, and every field is decoded in place, after which it is
the C string at the start of its buffer. -/
def cpe_name_fields (cpestr : CStr) : List CStr :=
  let data_ := cpestr.drop 5
  (cpe_split data_ [':']).map (fun f => cstr (cpe_urldecode f).2)

/-- The function `cpe_name_new`.  The results of `cpe_urldecode` and of
`cpe_assign_values` are not looked at. -/
def cpe_name_new (cpestr : Option CStr) : Option cpe_name :=
  match cpestr with
  | none => some cpe_name_zero
  | some s =>
    if !cpe_name_check s then none
    else
      let fields := cpe_name_fields s
      (cpe_assign_values (some { cpe_name_zero with fields_ := some fields }) (some fields)).2

/-- Loop of `cpe_name_match_one` over the candidate fields from index `i`;
`none` is a read of `against->fields_[i]` at or past its terminator. -/
def cpe_name_match_one_loop (against : List CStr) : List CStr → Nat → Option Bool
  | [], _ => some true
  | c :: rest, i =>
    if strcmp c [] != 0 then
      match against[i]? with
      | none => none
      | some a =>
        if strcasecmp c a != 0 then some false
        else cpe_name_match_one_loop against rest (i + 1)
    else cpe_name_match_one_loop against rest (i + 1)

/-- The function `cpe_name_match_one`; `none` is a memory fault. -/
def cpe_name_match_one (cpe against : Option cpe_name) : Option Bool :=
  match cpe, against with
  | none, _ => some false
  | some _, none => some false
  | some c, some a =>
    if ptrarray_length a.fields_ < ptrarray_length c.fields_ then some false
    else
      match c.fields_ with
      | none => none
      | some cf => cpe_name_match_one_loop (a.fields_.getD []) cf 0

/-- The conversion `(int)n` of a `size_t`. -/
def int_of_size_t (n : Nat) : Int :=
  if n % 2 ^ 32 < 2 ^ 31 then (n % 2 ^ 32 : Nat) else (n % 2 ^ 32 : Nat) - 2 ^ 32

/-- Loop of `cpe_name_match_strs` from index `i` on, `k` iterations left. -/
def cpe_name_match_strs_loop (ccpe : cpe_name) (targets : List CStr) :
    Nat → Nat → Option Int
  | 0, _ => some (-1)
  | k + 1, i =>
    match targets[i]? with
    | none => none
    | some t =>
      match cpe_name_match_one (some ccpe) (cpe_name_new (some t)) with
      | none => none
      | some true => some i
      | some false => cpe_name_match_strs_loop ccpe targets k (i + 1)

/-- The function `cpe_name_match_strs` on an array `targets` of strings;
`none` is a memory fault (a read past the array). -/
def cpe_name_match_strs (candidate : Option CStr) (n : Nat) (targets : List CStr) :
    Option Int :=
  match cpe_name_new candidate with
  | none => some (-2)
  | some ccpe => cpe_name_match_strs_loop ccpe targets (int_of_size_t n).toNat 0

/-- Loop of `cpe_name_match_cpes` from index `i` on, `k` iterations left;
`none` is a memory fault (in `cpe_name_match_one`, or a read past the array). -/
def cpe_name_match_cpes_loop (name : Option cpe_name) (namelist : List (Option cpe_name)) :
    Nat → Nat → Option Bool
  | 0, _ => some false
  | k + 1, i =>
    match namelist[i]? with
    | none => none
    | some p =>
      match cpe_name_match_one name p with
      | none => none
      | some true => some true
      | some false => cpe_name_match_cpes_loop name namelist k (i + 1)

/-- The function `cpe_name_match_cpes` on an array `namelist` of pointers to
names (each possibly `NULL`); `none` is a memory fault. -/
def cpe_name_match_cpes (name : Option cpe_name) (n : Nat)
    (namelist : Option (List (Option cpe_name))) : Option Bool :=
  match name, namelist with
  | none, _ => some false
  | some _, none => some false
  | some c, some l => cpe_name_match_cpes_loop (some c) l (int_of_size_t n).toNat 0

/-- The function `as_str`. -/
def as_str (str : Option CStr) : CStr := str.getD []

/-- The text written by the `sprintf` of `cpe_name_get_uri`. -/
def uri_format (cpe : cpe_name) : List Char :=
  CPE_SCHEMA ++ as_str (CPE_PART_CHAR cpe.part) ++ [':'] ++ as_str cpe.vendor ++ [':']
    ++ as_str cpe.product ++ [':'] ++ as_str cpe.version ++ [':'] ++ as_str cpe.update
    ++ [':'] ++ as_str cpe.edition ++ [':'] ++ as_str cpe.language

/-- The size `len` of the buffer of `cpe_name_get_uri`. -/
def uri_alloc_len (fields : List CStr) : Nat :=
  16 + ((fields.take CPE_FIELDNUM).map List.length).sum

/-- Loop `while (result[--i] == ':') result[i] = 0` of `cpe_name_get_uri`:
the string left in `result`; `none` is a read before the buffer. -/
def trim_colons_loop (result : List Char) : Nat → Option CStr
  | 0 => none
  | i + 1 => if result[i]? = some ':' then trim_colons_loop result i else some (result.take (i + 1))

/-- The index at which the loop `while (result[--i] == ':')` of
`cpe_name_get_uri` stops, started with `i` equal to the number of characters
written; `none` is a read before the buffer. -/
def trim_colons_stop (result : List Char) : Nat → Option Nat
  | 0 => none
  | i + 1 => if result[i]? = some ':' then trim_colons_stop result i else some i

/-- The function `cpe_name_get_uri`; `none` is the `NULL` result.  The buffer
has `uri_alloc_len` bytes; the trimming loop cannot run off its start, since
the text begins with `cpe:/`. -/
def cpe_name_get_uri (cpe : Option cpe_name) : Option CStr :=
  match cpe with
  | none => none
  | some c =>
    match c.fields_ with
    | none => none
    | some _ => trim_colons_loop (uri_format c) (uri_format c).length

/-! ## Definitions that follow the wording of the specification -/

/-- A unit of an escaped field: a plain character or an escape `%XY`. -/
inductive EscTok where
  | plain (c : Char)
  | esc (x y : Char)

/-- The text of a unit in the escaped field. -/
def EscTok.text : EscTok → List Char
  | .plain c => [c]
  | .esc x y => ['%', x, y]

/-- The byte a unit stands for: itself, or `16 * hex X + hex Y`. -/
def EscTok.byte : EscTok → Char
  | .plain c => c
  | .esc x y => Char.ofNat (16 * hexval x + hexval y)

/-- A unit is well formed: a plain character is not `%`, and the two
characters of an escape are hexadecimal digits. -/
def EscTok.ok : EscTok → Prop
  | .plain c => c ≠ '%'
  | .esc x y => isxdigit x = true ∧ isxdigit y = true

/-- Two strings are equal ignoring ASCII letter case. -/
def caseless_eq (a b : CStr) : Prop := a.map Char.toLower = b.map Char.toLower

instance (a b : CStr) : Decidable (caseless_eq a b) := by
  unfold caseless_eq
  infer_instance

/-- The attribute read from position `k` of a field sequence: absent when
field `k` does not exist or is the empty string, and field `k` otherwise. -/
def attr_at (fields : List CStr) (k : Nat) : Option CStr :=
  match fields[k]? with
  | none => none
  | some f => if f = [] then none else some f

/-- The six attributes of a name are the positional reading of the fields 1
to 6 of a field sequence, in the order vendor, product, version, update,
edition, language. -/
def attrs_positional (n : cpe_name) (fields : List CStr) : Prop :=
  n.vendor = attr_at fields 1 ∧ n.product = attr_at fields 2 ∧
  n.version = attr_at fields 3 ∧ n.update = attr_at fields 4 ∧
  n.edition = attr_at fields 5 ∧ n.language = attr_at fields 6

/-- Target `i` of a list of target strings parses and the candidate name
matches the name parsed from it. -/
def target_hit (c : cpe_name) (targets : List CStr) (i : Nat) : Prop :=
  ∃ (t : CStr) (p : cpe_name), targets[i]? = some t ∧ cpe_name_new (some t) = some p ∧
    cpe_name_match_one (some c) (some p) = some true

/-- A character allowed in a field: a letter, a digit or one of `. _ ~ % -`. -/
def field_char (c : Char) : Bool :=
  ('a' ≤ c && c ≤ 'z') || ('A' ≤ c && c ≤ 'Z') || ('0' ≤ c && c ≤ '9') ||
    c == '.' || c == '_' || c == '~' || c == '%' || c == '-'

/-- A part letter: one of `a`, `h`, `o`, in either case. -/
def part_char (c : Char) : Bool :=
  c == 'a' || c == 'h' || c == 'o' || c == 'A' || c == 'H' || c == 'O'

/-- The grammar of CPE URIs: a leading text `pre` accepted by `pre_ok`, at most
one part letter, then zero to six groups, each a `:` followed by zero or more
field characters. -/
def uri_grammar (pre_ok : List Char → Prop) (s : CStr) : Prop :=
  ∃ (pre part : List Char) (groups : List (List Char)),
    s = pre ++ part ++ (groups.map (fun g => ':' :: g)).flatten ∧ pre_ok pre ∧
    (part = [] ∨ ∃ c, part = [c] ∧ part_char c = true) ∧
    groups.length ≤ 6 ∧ ∀ g ∈ groups, ∀ c ∈ g, field_char c = true

/-- The seven segments of a rendered name: the part letter (empty when the
part is unspecified), then vendor, product, version, update, edition and
language, an absent attribute giving an empty segment. -/
def uri_segments (n : cpe_name) : List CStr :=
  [as_str (CPE_PART_CHAR n.part), as_str n.vendor, as_str n.product, as_str n.version,
   as_str n.update, as_str n.edition, as_str n.language]

/-- The rendering in the words of the specification: `cpe:/` followed by the
seven segments joined by `:`, cut off after the last non-empty segment. -/
def uri_spec (n : cpe_name) : CStr :=
  CPE_SCHEMA ++ [':'].intercalate ((uri_segments n).rdropWhile (fun seg => seg.isEmpty))

/-- Two names are equal field for field: the same part and the same vendor,
product, version, update, edition and language. -/
def same_attributes (a b : cpe_name) : Prop :=
  a.part = b.part ∧ a.vendor = b.vendor ∧ a.product = b.product ∧ a.version = b.version ∧
  a.update = b.update ∧ a.edition = b.edition ∧ a.language = b.language

instance (a b : cpe_name) : Decidable (same_attributes a b) := by
  unfold same_attributes
  infer_instance

/-- The k-th attribute of a name, in the order vendor, product, version,
update, edition, language for k = 1..6. -/
def attr_of (n : cpe_name) (k : Nat) : Option CStr :=
  match k with
  | 1 => n.vendor
  | 2 => n.product
  | 3 => n.version
  | 4 => n.update
  | 5 => n.edition
  | 6 => n.language
  | _ => none

/-- The text after a `%` starts with two hexadecimal digits. -/
def hex_pair_follows : List Char → Bool
  | x :: y :: _ => isxdigit x && isxdigit y
  | _ => false

/-- Each `%` met by a single left-to-right scan of the field is followed by
two hexadecimal digits (the scan resumes after them). -/
def well_escaped : List Char → Bool
  | [] => true
  | c :: rest =>
    if c = '%' then
      match rest with
      | x :: y :: rest2 => isxdigit x && isxdigit y && well_escaped rest2
      | _ => false
    else well_escaped rest

end CpeUri

/-! # Theorems -/

namespace CpeUri
open cpe_part

/-! ## Splitting -/

theorem strsep_no_delim (delim : List Char) (s : CStr) (h : ∀ c ∈ s, c ∉ delim) :
    strsep delim s = (s, none) := by
  induction s with
  | nil => rfl
  | cons c cs ih =>
    have hc : c ∉ delim := h c (List.mem_cons_self _ _)
    have ih2 := ih (fun x hx => h x (List.mem_cons_of_mem _ hx))
    simp [strsep, hc, ih2]

theorem strsep_append (delim : List Char) (tok r : CStr) (d : Char)
    (h : ∀ c ∈ tok, c ∉ delim) (hd : d ∈ delim) :
    strsep delim (tok ++ d :: r) = (tok, some r) := by
  induction tok with
  | nil => simp [strsep, hd]
  | cons c cs ih =>
    have hc : c ∉ delim := h c (List.mem_cons_self _ _)
    have ih2 := ih (fun x hx => h x (List.mem_cons_of_mem _ hx))
    simp [strsep, hc, ih2]

theorem strsep_cases (delim : List Char) (s : CStr) :
    ((∀ c ∈ s, c ∉ delim) ∧ strsep delim s = (s, none)) ∨
    (∃ tok d r, s = tok ++ d :: r ∧ (∀ c ∈ tok, c ∉ delim) ∧ d ∈ delim ∧
      strsep delim s = (tok, some r)) := by
  induction s with
  | nil => left; simp [strsep]
  | cons c cs ih =>
    by_cases hc : c ∈ delim
    · right
      exact ⟨[], c, cs, by simp, by simp, hc, by simp [strsep, hc]⟩
    · rcases ih with ⟨h1, h2⟩ | ⟨tok, d, r, h1, h2, h3, h4⟩
      · left
        refine ⟨?_, ?_⟩
        · intro x hx
          rcases List.mem_cons.1 hx with rfl | hx
          · exact hc
          · exact h1 x hx
        · simp [strsep, hc, h2]
      · right
        refine ⟨c :: tok, d, r, by simp [h1], ?_, h3, by simp [strsep, hc, h4]⟩
        intro x hx
        rcases List.mem_cons.1 hx with rfl | hx
        · exact hc
        · exact h2 x hx

theorem cpe_split_loop_some (delim : List Char) (fuel : Nat) (s : CStr) :
    cpe_split_loop delim (fuel + 1) (some s) =
      (strsep delim s).1 :: cpe_split_loop delim fuel (strsep delim s).2 := rfl

theorem cpe_split_loop_succ (delim : List Char) (fuel : Nat) (s : CStr)
    (h : s.length < fuel) :
    cpe_split_loop delim (fuel + 1) (some s) = cpe_split_loop delim fuel (some s) := by
  induction fuel generalizing s with
  | zero => omega
  | succ k ih =>
    rcases strsep_cases delim s with ⟨_, h2⟩ | ⟨tok, d, r, h1, _, _, h4⟩
    · rw [cpe_split_loop_some, cpe_split_loop_some, h2]
      cases k <;> rfl
    · have hr : r.length < k := by
        have : s.length = tok.length + (r.length + 1) := by simp [h1]
        omega
      have := ih r hr
      rw [cpe_split_loop_some, cpe_split_loop_some, h4]
      simp only
      rw [this]

theorem cpe_split_loop_fuel (delim : List Char) (k : Nat) (fuel : Nat) (s : CStr)
    (h : s.length < fuel) :
    cpe_split_loop delim (fuel + k) (some s) = cpe_split_loop delim fuel (some s) := by
  induction k with
  | zero => rfl
  | succ k ih =>
    rw [← Nat.add_assoc, cpe_split_loop_succ delim (fuel + k) s (by omega), ih]

theorem cpe_split_no_delim (delim : List Char) (s : CStr) (h : ∀ c ∈ s, c ∉ delim) :
    cpe_split s delim = [s] := by
  unfold cpe_split
  rw [cpe_split_loop_some, strsep_no_delim delim s h]
  cases s.length <;> rfl

theorem cpe_split_append (delim : List Char) (tok r : CStr) (d : Char)
    (h : ∀ c ∈ tok, c ∉ delim) (hd : d ∈ delim) :
    cpe_split (tok ++ d :: r) delim = tok :: cpe_split r delim := by
  have hl : (tok ++ d :: r).length = (r.length + 1) + tok.length := by
    simp; omega
  unfold cpe_split
  rw [cpe_split_loop_some, strsep_append delim tok r d h hd]
  simp only
  rw [hl, cpe_split_loop_fuel delim tok.length (r.length + 1) r (by omega)]

/-- The three properties of a split at `:` together, by induction on the
length of the body. -/
theorem cpe_split_props (n : Nat) : ∀ s : CStr, s.length ≤ n →
    (cpe_split s [':']).length = s.count ':' + 1 ∧
    (∀ f ∈ cpe_split s [':'], ':' ∉ f) ∧
    [':'].intercalate (cpe_split s [':']) = s := by
  induction n with
  | zero =>
    intro s hs
    have : s = [] := List.length_eq_zero.1 (by omega)
    subst this
    decide
  | succ n ih =>
    intro s hs
    rcases strsep_cases [':'] s with ⟨h1, _⟩ | ⟨tok, d, r, h1, h2, h3, _⟩
    · have hc : ':' ∉ s := fun hm => h1 ':' hm (by simp)
      rw [cpe_split_no_delim [':'] s h1]
      refine ⟨by simp [List.count_eq_zero_of_not_mem hc], by simpa using hc, by simp [List.intercalate]⟩
    · have hd : d = ':' := by simpa using h3
      subst hd
      have hr : r.length ≤ n := by
        have : s.length = tok.length + (r.length + 1) := by simp [h1]
        omega
      obtain ⟨i1, i2, i3⟩ := ih r hr
      have hc : ':' ∉ tok := fun hm => h2 ':' hm (by simp)
      rw [h1, cpe_split_append [':'] tok r ':' h2 h3]
      refine ⟨?_, ?_, ?_⟩
      · simp [i1, List.count_append, List.count_eq_zero_of_not_mem hc]
      · intro f hf
        rcases List.mem_cons.1 hf with rfl | hf
        · exact hc
        · exact i2 f hf
      · cases hsp : cpe_split r [':'] with
        | nil => rw [hsp] at i1; simp at i1
        | cons a as =>
          rw [hsp] at i3
          rw [← i3]
          simp [List.intercalate, List.intersperse]

theorem cpe_urldecode_loop_plain (c : Char) (rest out : List Char) (hc : c ≠ '%') :
    cpe_urldecode_loop (c :: rest) out = cpe_urldecode_loop rest (out ++ [c]) := by
  rcases rest with _ | ⟨x, _ | ⟨y, r⟩⟩ <;> simp [cpe_urldecode_loop, hc]
theorem cpe_urldecode_loop_esc (x y : Char) (rest out : List Char) (hx : isxdigit x = true)
    (hy : isxdigit y = true) :
    cpe_urldecode_loop ('%' :: x :: y :: rest) out
      = cpe_urldecode_loop rest (out ++ [Char.ofNat (16 * hexval x + hexval y)]) := by
  simp [cpe_urldecode_loop, hx, hy]
theorem well_escaped_plain (c : Char) (rest : List Char) (hc : c ≠ '%') :
    well_escaped (c :: rest) = well_escaped rest := by
  rcases rest with _ | ⟨x, _ | ⟨y, r⟩⟩ <;> simp [well_escaped, hc]
theorem well_escaped_esc (x y : Char) (rest : List Char) :
    well_escaped ('%' :: x :: y :: rest) = (isxdigit x && isxdigit y && well_escaped rest) := by
  simp [well_escaped]
theorem well_escaped_short (x : Char) : well_escaped ['%', x] = false := by
  simp [well_escaped]

theorem cpe_urldecode_loop_toks (toks : List EscTok) (h : ∀ t ∈ toks, t.ok) :
    ∀ out : List Char,
      cpe_urldecode_loop (toks.flatMap EscTok.text) out = (true, out ++ toks.map EscTok.byte) := by
  induction toks with
  | nil => intro out; simp [cpe_urldecode_loop]
  | cons t ts ih =>
    intro out
    have ht := h t (List.mem_cons_self _ _)
    have ih2 := ih (fun x hx => h x (List.mem_cons_of_mem _ hx))
    cases t with
    | plain c =>
      have hc : c ≠ '%' := ht
      simp [EscTok.text, EscTok.byte, cpe_urldecode_loop_plain _ _ _ hc, ih2]
    | esc x y =>
      obtain ⟨hx, hy⟩ : isxdigit x = true ∧ isxdigit y = true := ht
      have := cpe_urldecode_loop_esc x y (ts.flatMap EscTok.text) out hx hy
      simp only [List.flatMap_cons, EscTok.text, List.cons_append, List.nil_append,
        List.map_cons, EscTok.byte]
      rw [this, ih2]
      simp

theorem well_escaped_toks (n : Nat) : ∀ s : List Char, s.length ≤ n → well_escaped s = true →
    ∃ toks : List EscTok, s = toks.flatMap EscTok.text ∧ ∀ t ∈ toks, t.ok := by
  induction n with
  | zero =>
    intro s hs _
    have : s = [] := List.length_eq_zero.1 (by omega)
    exact ⟨[], by simp [this], by simp⟩
  | succ n ih =>
    intro s hs hw
    match s, hs, hw with
    | [], _, _ => exact ⟨[], by simp, by simp⟩
    | c :: rest, hs, hw =>
      by_cases hc : c = '%'
      · subst hc
        match rest, hs, hw with
        | [], _, hw => exact absurd hw (by decide)
        | [x], _, hw => simp [well_escaped_short] at hw
        | x :: y :: r, hs, hw =>
          simp only [well_escaped_esc, Bool.and_eq_true] at hw
          obtain ⟨toks, h1, h2⟩ := ih r (by simp at hs; omega) hw.2
          refine ⟨EscTok.esc x y :: toks, by simp [EscTok.text, h1], ?_⟩
          intro t ht
          rcases List.mem_cons.1 ht with rfl | ht
          · exact ⟨hw.1.1, hw.1.2⟩
          · exact h2 t ht
      · rw [well_escaped_plain c rest hc] at hw
        obtain ⟨toks, h1, h2⟩ := ih rest (by simp at hs; omega) hw
        refine ⟨EscTok.plain c :: toks, by simp [EscTok.text, h1], ?_⟩
        intro t ht
        rcases List.mem_cons.1 ht with rfl | ht
        · exact hc
        · exact h2 t ht

theorem well_escaped_of_no_percent (s : List Char) (h : '%' ∉ s) : well_escaped s = true := by
  induction s with
  | nil => rfl
  | cons c cs ih =>
    have hc : c ≠ '%' := fun e => h (e ▸ List.mem_cons_self _ _)
    rw [well_escaped_plain c cs hc]
    exact ih (fun hm => h (List.mem_cons_of_mem _ hm))

theorem cpe_urldecode_loop_no_percent (s : List Char) (h : '%' ∉ s) :
    ∀ out : List Char, cpe_urldecode_loop s out = (true, out ++ s) := by
  induction s with
  | nil => intro out; simp [cpe_urldecode_loop]
  | cons c cs ih =>
    intro out
    have hc : c ≠ '%' := fun e => h (e ▸ List.mem_cons_self _ _)
    rw [cpe_urldecode_loop_plain c cs out hc, ih (fun hm => h (List.mem_cons_of_mem _ hm))]
    simp

/-- C10: for every field in which each `%` met by the left-to-right scan is
followed by two hexadecimal digits, `cpe_urldecode` succeeds and leaves the
field with every escape `%XY` replaced by the byte `16 * hex X + hex Y` and
every other character unchanged; the scan is single-pass (`%2541` decodes to
`%41`), and a field without `%` is left unchanged. -/
theorem cpe_urldecode_well_escaped :
    (∀ s : CStr, well_escaped s = true →
      ∃ toks : List EscTok, s = toks.flatMap EscTok.text ∧ (∀ t ∈ toks, t.ok) ∧
        cpe_urldecode s = (true, toks.map EscTok.byte)) ∧
    cpe_urldecode ['%', '2', '5', '4', '1'] = (true, ['%', '4', '1']) ∧
    (∀ s : CStr, '%' ∉ s → cpe_urldecode s = (true, s)) := by
  refine ⟨?_, by decide, ?_⟩
  · intro s hs
    obtain ⟨toks, h1, h2⟩ := well_escaped_toks s.length s (Nat.le_refl _) hs
    refine ⟨toks, h1, h2, ?_⟩
    rw [h1]
    simpa [cpe_urldecode] using cpe_urldecode_loop_toks toks h2 []
  · intro s hs
    simpa [cpe_urldecode] using cpe_urldecode_loop_no_percent s hs []

/-- Witness of C10 at the field `a%2Fb`. -/
theorem cpe_urldecode_well_escaped_witness :
    well_escaped ['a', '%', '2', 'F', 'b'] = true ∧
    (∃ toks : List EscTok, ['a', '%', '2', 'F', 'b'] = toks.flatMap EscTok.text ∧
      (∀ t ∈ toks, t.ok) ∧
      cpe_urldecode ['a', '%', '2', 'F', 'b'] = (true, toks.map EscTok.byte)) ∧
    cpe_urldecode ['a', '/', 'b'] = (true, ['a', '/', 'b']) :=
  ⟨by decide, cpe_urldecode_well_escaped.1 _ (by decide),
    cpe_urldecode_well_escaped.2.2 _ (by decide)⟩


/-! ## Matching -/

theorem strcmp_empty (c : CStr) : (strcmp c [] != 0) = true ↔ c ≠ [] := by
  cases c <;> simp [strcmp]

theorem strcasecmp_eq_zero (a b : CStr) : strcasecmp a b = 0 ↔ caseless_eq a b := by
  induction a generalizing b with
  | nil => cases b <;> simp [strcasecmp, caseless_eq]
  | cons x xs ih =>
    cases b with
    | nil => simp [strcasecmp, caseless_eq]
    | cons y ys =>
      by_cases h : tolower x = tolower y
      · have h2 : x.toLower = y.toLower := h
        simp [strcasecmp, h, ih ys, caseless_eq, h2]
      · have h2 : ¬ x.toLower = y.toLower := h
        by_cases h3 : (tolower x).toNat < (tolower y).toNat <;>
          simp [strcasecmp, h, h3, caseless_eq, h2]

theorem cpe_assign_values_loop_fields (fs : List CStr) :
    ∀ (i : Nat) (c : cpe_name), (cpe_assign_values_loop fs i c).2.fields_ = c.fields_ := by
  induction fs with
  | nil => intro i c; rfl
  | cons f rest ih =>
    intro i c
    rcases i with _ | _ | _ | _ | _ | _ | _ | _ | i
    · simp only [cpe_assign_values_loop]
      split
      · split_ifs <;> simp [ih]
      · rfl
    all_goals simp [cpe_assign_values_loop, ih]

theorem cpe_name_new_some (s : CStr) (c : cpe_name) (h : cpe_name_new (some s) = some c) :
    cpe_name_check s = true ∧
    c = (cpe_assign_values_loop (cpe_name_fields s) 0
          { cpe_name_zero with fields_ := some (cpe_name_fields s) }).2 := by
  unfold cpe_name_new at h
  by_cases hk : cpe_name_check s = true
  · simp [hk, cpe_assign_values] at h
    exact ⟨hk, h.symm⟩
  · simp [hk] at h

theorem cpe_name_new_fields (s : CStr) (c : cpe_name) (h : cpe_name_new (some s) = some c) :
    c.fields_ = some (cpe_name_fields s) := by
  rw [(cpe_name_new_some s c h).2, cpe_assign_values_loop_fields]

theorem cpe_name_match_one_loop_true (af : List CStr) (cf : List CStr) :
    ∀ i : Nat, i + cf.length ≤ af.length →
      (cpe_name_match_one_loop af cf i = some true ∨ cpe_name_match_one_loop af cf i = some false) ∧
      (cpe_name_match_one_loop af cf i = some true ↔
        ∀ j, j < cf.length → cf.getD j [] = [] ∨ caseless_eq (cf.getD j []) (af.getD (i + j) [])) := by
  induction cf with
  | nil => intro i _; simp [cpe_name_match_one_loop]
  | cons c rest ih =>
    intro i hi
    have hlen : i < af.length := by simp at hi; omega
    obtain ⟨ih1, ih2⟩ := ih (i + 1) (by simp at hi; omega)
    have hget : af[i]? = some (af.getD i []) := by
      simp [List.getD, List.getElem?_eq_getElem hlen]
    have hall : (∀ j, j < (c :: rest).length →
          (c :: rest).getD j [] = [] ∨ caseless_eq ((c :: rest).getD j []) (af.getD (i + j) [])) ↔
        ((c = [] ∨ caseless_eq c (af.getD i [])) ∧
          ∀ j, j < rest.length → rest.getD j [] = [] ∨
            caseless_eq (rest.getD j []) (af.getD (i + 1 + j) [])) := by
      constructor
      · intro h
        refine ⟨by simpa using h 0 (by simp), fun j hj => ?_⟩
        have := h (j + 1) (by simp; omega)
        have e : i + (j + 1) = i + 1 + j := by omega
        simpa [e] using this
      · rintro ⟨h0, h1⟩ j hj
        cases j with
        | zero => simpa using h0
        | succ j =>
          have := h1 j (by simp at hj; omega)
          have e : i + (j + 1) = i + 1 + j := by omega
          simpa [e] using this
    rw [hall]
    by_cases hc : c = []
    · subst hc
      have hs : (strcmp [] [] != 0) = false := by decide
      rw [cpe_name_match_one_loop]
      simp only [hs, Bool.false_eq_true, if_false]
      exact ⟨ih1, ih2.trans ⟨fun h => ⟨by simp, h⟩, fun h => h.2⟩⟩
    · have hs : (strcmp c [] != 0) = true := (strcmp_empty c).2 hc
      rw [cpe_name_match_one_loop]
      simp only [hs, if_true, hget]
      by_cases he : strcasecmp c (af.getD i []) = 0
      · have hce := (strcasecmp_eq_zero _ _).1 he
        have hb : (strcasecmp c (af.getD i []) != 0) = false := by rw [he]; rfl
        simp only [hb, Bool.false_eq_true, if_false]
        exact ⟨ih1, ih2.trans ⟨fun h => ⟨Or.inr hce, h⟩, fun h => h.2⟩⟩
      · have hce : ¬ caseless_eq c (af.getD i []) := fun h => he ((strcasecmp_eq_zero _ _).2 h)
        have hb : (strcasecmp c (af.getD i []) != 0) = true := by simpa using he
        simp only [hb, if_true]
        exact ⟨by simp, ⟨fun h => by simp at h, fun h => absurd (h.1.resolve_left hc) hce⟩⟩

theorem cpe_name_match_one_of_fields (c p : cpe_name) (cf pf : List CStr)
    (hc : c.fields_ = some cf) (hp : p.fields_ = some pf) :
    (cpe_name_match_one (some c) (some p) = some true ∨
      cpe_name_match_one (some c) (some p) = some false) ∧
    (cpe_name_match_one (some c) (some p) = some true ↔
      cf.length ≤ pf.length ∧
      ∀ j, j < cf.length → cf.getD j [] = [] ∨ caseless_eq (cf.getD j []) (pf.getD j [])) := by
  by_cases hl : pf.length < cf.length
  · have : cpe_name_match_one (some c) (some p) = some false := by
      simp [cpe_name_match_one, hc, hp, ptrarray_length, hl]
    rw [this]
    exact ⟨Or.inr rfl, ⟨fun h => by simp at h, fun h => absurd h.1 (by omega)⟩⟩
  · have : cpe_name_match_one (some c) (some p) = cpe_name_match_one_loop pf cf 0 := by
      simp [cpe_name_match_one, hc, hp, ptrarray_length, hl]
    rw [this]
    obtain ⟨h1, h2⟩ := cpe_name_match_one_loop_true pf cf 0 (by omega)
    refine ⟨h1, h2.trans ⟨fun h => ⟨by omega, fun j hj => ?_⟩, fun h j hj => ?_⟩⟩
    · simpa using h j hj
    · simpa using h.2 j hj

/-- C1: for a candidate `c` and a pattern `p` both built by parsing a URI
string, `cpe_name_match_one c p` returns true if and only if `c` has at most
as many fields as `p` and every field of `c` is empty or equal, ignoring
letter case, to the field of `p` at the same position; it returns false
otherwise, and the fields of `p` beyond the length of `c` have no influence. -/
theorem cpe_name_match_one_parsed (s t : CStr) (c p : cpe_name)
    (hc : cpe_name_new (some s) = some c) (hp : cpe_name_new (some t) = some p) :
    ∃ cf pf : List CStr, c.fields_ = some cf ∧ p.fields_ = some pf ∧
      (cpe_name_match_one (some c) (some p) = some true ∨
        cpe_name_match_one (some c) (some p) = some false) ∧
      (cpe_name_match_one (some c) (some p) = some true ↔
        cf.length ≤ pf.length ∧
        ∀ i, i < cf.length → cf.getD i [] = [] ∨ caseless_eq (cf.getD i []) (pf.getD i [])) ∧
      (∀ (t2 : CStr) (p2 : cpe_name) (pf2 : List CStr),
        cpe_name_new (some t2) = some p2 → p2.fields_ = some pf2 →
        pf2.take cf.length = pf.take cf.length →
        cpe_name_match_one (some c) (some p2) = cpe_name_match_one (some c) (some p)) := by
  have hcf := cpe_name_new_fields s c hc
  have hpf := cpe_name_new_fields t p hp
  obtain ⟨h1, h2⟩ := cpe_name_match_one_of_fields c p _ _ hcf hpf
  refine ⟨_, _, hcf, hpf, h1, h2, ?_⟩
  intro t2 p2 pf2 _ hpf2 htake
  obtain ⟨g1, g2⟩ := cpe_name_match_one_of_fields c p2 _ _ hcf hpf2
  generalize cpe_name_fields s = cf at *
  generalize cpe_name_fields t = pf at *
  have hlen : cf.length ≤ pf2.length ↔ cf.length ≤ pf.length := by
    have := congrArg List.length htake
    simp only [List.length_take] at this
    omega
  have hiff : cpe_name_match_one (some c) (some p2) = some true ↔
      cpe_name_match_one (some c) (some p) = some true := by
    rw [h2, g2]
    constructor
    · rintro ⟨a, b⟩
      refine ⟨hlen.1 a, fun i hi => ?_⟩
      have e : pf.getD i [] = pf2.getD i [] := by
        have := congrArg (fun l => l.getD i []) htake
        simpa [List.getD, List.getElem?_take, hi] using this.symm
      rw [e]; exact b i hi
    · rintro ⟨a, b⟩
      refine ⟨hlen.2 a, fun i hi => ?_⟩
      have e : pf.getD i [] = pf2.getD i [] := by
        have := congrArg (fun l => l.getD i []) htake
        simpa [List.getD, List.getElem?_take, hi] using this.symm
      rw [← e]; exact b i hi
  rcases g1 with g | g <;> rcases h1 with h | h
  · rw [g, h]
  · rw [hiff, h] at g; cases g
  · rw [← hiff, g] at h; cases h
  · rw [g, h]

/-- Witness of C1: the candidate `cpe:/A:ACME:Widget` matches the pattern
`cpe:/a:acme:widget`. -/
theorem cpe_name_match_one_parsed_witness :
    cpe_name_new (some "cpe:/A:ACME:Widget".toList) =
      some ⟨some ["A".toList, "ACME".toList, "Widget".toList], CPE_PART_APP,
        some "ACME".toList, some "Widget".toList, none, none, none, none⟩ ∧
    cpe_name_new (some "cpe:/a:acme:widget".toList) =
      some ⟨some ["a".toList, "acme".toList, "widget".toList], CPE_PART_APP,
        some "acme".toList, some "widget".toList, none, none, none, none⟩ ∧
    cpe_name_match_one
        (some ⟨some ["A".toList, "ACME".toList, "Widget".toList], CPE_PART_APP,
          some "ACME".toList, some "Widget".toList, none, none, none, none⟩)
        (some ⟨some ["a".toList, "acme".toList, "widget".toList], CPE_PART_APP,
          some "acme".toList, some "widget".toList, none, none, none, none⟩)
        = some true := by
  obtain ⟨cf, pf, h1, h2, _, h4, _⟩ :=
    cpe_name_match_one_parsed "cpe:/A:ACME:Widget".toList "cpe:/a:acme:widget".toList
      ⟨some ["A".toList, "ACME".toList, "Widget".toList], CPE_PART_APP,
        some "ACME".toList, some "Widget".toList, none, none, none, none⟩
      ⟨some ["a".toList, "acme".toList, "widget".toList], CPE_PART_APP,
        some "acme".toList, some "widget".toList, none, none, none, none⟩
      (by decide) (by decide)
  cases h1
  cases h2
  exact ⟨by decide, by decide, h4.2 ⟨by decide, by decide⟩⟩

/-! ## Building a name -/

theorem field_out_eq (f : CStr) : field_out f = if f = [] then none else some f := by
  cases f <;> simp [field_out, strcmp]

theorem cpe_assign_values_loop_attrs (rest : List CStr) (f0 : CStr) (c : cpe_name)
    (hv : c.vendor = none) (hp : c.product = none) (hs : c.version = none)
    (hu : c.update = none) (he : c.edition = none) (hl : c.language = none) :
    (cpe_assign_values_loop rest 1 c).2 =
      { fields_ := c.fields_, part := c.part,
        vendor := attr_at (f0 :: rest) 1, product := attr_at (f0 :: rest) 2,
        version := attr_at (f0 :: rest) 3, update := attr_at (f0 :: rest) 4,
        edition := attr_at (f0 :: rest) 5, language := attr_at (f0 :: rest) 6 } := by
  obtain ⟨fl, pa, v, p, s, u, e, l⟩ := c
  simp only at hv hp hs hu he hl
  subst hv hp hs hu he hl
  rcases rest with _ | ⟨f1, _ | ⟨f2, _ | ⟨f3, _ | ⟨f4, _ | ⟨f5, _ | ⟨f6, _ | ⟨f7, r⟩⟩⟩⟩⟩⟩⟩ <;>
    simp [cpe_assign_values_loop, attr_at, field_out_eq]

theorem caseless_eq_single (f : CStr) (x : Char) :
    caseless_eq f [x] ↔ ∃ d, f = [d] ∧ d.toLower = x.toLower := by
  rcases f with _ | ⟨d, _ | ⟨e, r⟩⟩ <;> simp [caseless_eq]

theorem cpe_assign_values_loop_part (f0 : CStr) (rest : List CStr) (c : cpe_name) (x : Char)
    (P : cpe_part) (hf : caseless_eq f0 [x])
    (hx : (x = 'h' ∧ P = CPE_PART_HW) ∨ (x = 'o' ∧ P = CPE_PART_OS) ∨ (x = 'a' ∧ P = CPE_PART_APP)) :
    cpe_assign_values_loop (f0 :: rest) 0 c =
      cpe_assign_values_loop rest 1 { c with part := P } := by
  obtain ⟨d, rfl, hd⟩ := (caseless_eq_single f0 x).1 hf
  have key : ∀ y : Char, strcasecmp [d] [y] = 0 ↔ x.toLower = y.toLower := by
    intro y
    rw [strcasecmp_eq_zero]
    simp [caseless_eq, hd]
  have e1 : ¬ ('o'.toLower = 'h'.toLower) := by decide
  have e2 : ¬ ('a'.toLower = 'h'.toLower) := by decide
  have e3 : ¬ ('a'.toLower = 'o'.toLower) := by decide
  rw [cpe_assign_values_loop]
  rcases hx with ⟨rfl, rfl⟩ | ⟨rfl, rfl⟩ | ⟨rfl, rfl⟩ <;>
    simp [field_out_eq, key, e1, e2, e3]

theorem cpe_name_new_attrs (s : CStr) (n : cpe_name) (h : cpe_name_new (some s) = some n)
    (x : Char) (P : cpe_part) (hf : caseless_eq ((cpe_name_fields s).getD 0 []) [x])
    (hx : (x = 'h' ∧ P = CPE_PART_HW) ∨ (x = 'o' ∧ P = CPE_PART_OS) ∨ (x = 'a' ∧ P = CPE_PART_APP)) :
    n = { fields_ := some (cpe_name_fields s), part := P,
          vendor := attr_at (cpe_name_fields s) 1, product := attr_at (cpe_name_fields s) 2,
          version := attr_at (cpe_name_fields s) 3, update := attr_at (cpe_name_fields s) 4,
          edition := attr_at (cpe_name_fields s) 5, language := attr_at (cpe_name_fields s) 6 } := by
  rw [(cpe_name_new_some s n h).2]
  generalize hfs : cpe_name_fields s = fs at hf
  cases fs with
  | nil =>
    obtain ⟨d, hd, _⟩ := (caseless_eq_single _ x).1 hf
    simp at hd
  | cons f0 rest =>
    rw [cpe_assign_values_loop_part f0 rest _ x P (by simpa using hf) hx]
    rw [cpe_assign_values_loop_attrs rest f0 _ rfl rfl rfl rfl rfl rfl]

/-- C2: for every URI string that parses with field 0 equal, ignoring case, to
`h`, `o` or `a`, `cpe_name_new` maps the decoded fields positionally: the part
is hardware, operating system or application respectively, and the k-th
attribute (vendor, product, version, update, edition, language for k = 1..6)
is absent when field k does not exist or is empty and is decoded field k
otherwise; `cpe:/a:acme:widget:1.0` gives part application, vendor `acme`,
product `widget`, version `1.0` and no update, edition or language. -/
theorem cpe_name_new_positional :
    (∀ (s : CStr) (n : cpe_name), cpe_name_new (some s) = some n →
      n.fields_ = some (cpe_name_fields s) ∧
      (caseless_eq ((cpe_name_fields s).getD 0 []) ['h'] →
        n.part = CPE_PART_HW ∧ attrs_positional n (cpe_name_fields s)) ∧
      (caseless_eq ((cpe_name_fields s).getD 0 []) ['o'] →
        n.part = CPE_PART_OS ∧ attrs_positional n (cpe_name_fields s)) ∧
      (caseless_eq ((cpe_name_fields s).getD 0 []) ['a'] →
        n.part = CPE_PART_APP ∧ attrs_positional n (cpe_name_fields s))) ∧
    cpe_name_new (some "cpe:/a:acme:widget:1.0".toList) =
      some { fields_ := some ["a".toList, "acme".toList, "widget".toList, "1.0".toList],
             part := CPE_PART_APP, vendor := some "acme".toList,
             product := some "widget".toList, version := some "1.0".toList,
             update := none, edition := none, language := none } := by
  refine ⟨fun s n h => ⟨cpe_name_new_fields s n h, ?_, ?_, ?_⟩, by decide⟩
  · intro hf
    have := cpe_name_new_attrs s n h 'h' CPE_PART_HW hf (Or.inl ⟨rfl, rfl⟩)
    rw [this]
    exact ⟨rfl, rfl, rfl, rfl, rfl, rfl, rfl⟩
  · intro hf
    have := cpe_name_new_attrs s n h 'o' CPE_PART_OS hf (Or.inr (Or.inl ⟨rfl, rfl⟩))
    rw [this]
    exact ⟨rfl, rfl, rfl, rfl, rfl, rfl, rfl⟩
  · intro hf
    have := cpe_name_new_attrs s n h 'a' CPE_PART_APP hf (Or.inr (Or.inr ⟨rfl, rfl⟩))
    rw [this]
    exact ⟨rfl, rfl, rfl, rfl, rfl, rfl, rfl⟩

/-- Witness of C2 at `cpe:/O:Acme::9`: operating system, vendor `Acme`, no
product, version `9`. -/
theorem cpe_name_new_positional_witness :
    cpe_name_new (some "cpe:/O:Acme::9".toList) =
      some ⟨some ["O".toList, "Acme".toList, [], "9".toList], CPE_PART_OS,
        some "Acme".toList, none, some "9".toList, none, none, none⟩ ∧
    caseless_eq ((cpe_name_fields "cpe:/O:Acme::9".toList).getD 0 []) ['o'] ∧
    attrs_positional
      (⟨some ["O".toList, "Acme".toList, [], "9".toList], CPE_PART_OS,
        some "Acme".toList, none, some "9".toList, none, none, none⟩ : cpe_name)
      (cpe_name_fields "cpe:/O:Acme::9".toList) :=
  ⟨by decide, by decide,
    ((cpe_name_new_positional.1 "cpe:/O:Acme::9".toList _ (by decide)).2.2.1 (by decide)).2⟩

/-! ## Matching against a list of strings -/

theorem cpe_name_match_one_target (c : cpe_name) (cf : List CStr) (hc : c.fields_ = some cf)
    (t : CStr) :
    (cpe_name_match_one (some c) (cpe_name_new (some t)) = some true ∧
      ∃ p, cpe_name_new (some t) = some p ∧ cpe_name_match_one (some c) (some p) = some true) ∨
    (cpe_name_match_one (some c) (cpe_name_new (some t)) = some false ∧
      ¬ ∃ p, cpe_name_new (some t) = some p ∧ cpe_name_match_one (some c) (some p) = some true) := by
  cases hp : cpe_name_new (some t) with
  | none => right; simp [cpe_name_match_one]
  | some p =>
    have hpf := cpe_name_new_fields t p hp
    rcases (cpe_name_match_one_of_fields c p _ _ hc hpf).1 with h | h
    · left; exact ⟨h, p, rfl, h⟩
    · right
      refine ⟨h, ?_⟩
      rintro ⟨q, hq, hm⟩
      cases hq
      rw [h] at hm
      cases hm

theorem cpe_name_match_strs_loop_first (c : cpe_name) (cf : List CStr)
    (hc : c.fields_ = some cf) (targets : List CStr) :
    ∀ k i : Nat, i + k ≤ targets.length →
      (∀ j, i ≤ j → j < i + k → target_hit c targets j →
        (∀ m, i ≤ m → m < j → ¬ target_hit c targets m) →
        cpe_name_match_strs_loop c targets k i = some (j : Int)) ∧
      ((∀ j, i ≤ j → j < i + k → ¬ target_hit c targets j) →
        cpe_name_match_strs_loop c targets k i = some (-1)) := by
  intro k
  induction k with
  | zero =>
    intro i _
    exact ⟨fun j h1 h2 => by omega, fun _ => rfl⟩
  | succ k ih =>
    intro i hi
    have hlt : i < targets.length := by omega
    have hget : targets[i]? = some targets[i] := List.getElem?_eq_getElem hlt
    obtain ⟨ih1, ih2⟩ := ih (i + 1) (by omega)
    have hhit : target_hit c targets i ↔
        ∃ p, cpe_name_new (some targets[i]) = some p ∧
          cpe_name_match_one (some c) (some p) = some true := by
      constructor
      · rintro ⟨t, p, h1, h2, h3⟩
        rw [hget] at h1
        cases h1
        exact ⟨p, h2, h3⟩
      · rintro ⟨p, h2, h3⟩
        exact ⟨_, p, hget, h2, h3⟩
    rw [cpe_name_match_strs_loop]
    simp only [hget]
    rcases cpe_name_match_one_target c cf hc targets[i] with ⟨h, hp⟩ | ⟨h, hp⟩
    · simp only [h]
      have hi0 : target_hit c targets i := hhit.2 hp
      refine ⟨fun j h1 h2 _ hmin => ?_, fun hno => absurd hi0 (hno i (Nat.le_refl _) (by omega))⟩
      by_cases hji : j = i
      · rw [hji]
      · exact absurd hi0 (hmin i (Nat.le_refl _) (by omega))
    · simp only [h]
      have hi0 : ¬ target_hit c targets i := fun hh => hp (hhit.1 hh)
      refine ⟨fun j h1 h2 hj hmin => ?_, fun hno => ?_⟩
      · have hji : j ≠ i := fun e => hi0 (e ▸ hj)
        exact ih1 j (by omega) (by omega) hj (fun m hm1 hm2 => hmin m (by omega) hm2)
      · exact ih2 (fun j hj1 hj2 => hno j (by omega) (by omega))

theorem int_of_size_t_small (n : Nat) (h : n < 2 ^ 31) : (int_of_size_t n).toNat = n := by
  have h1 : n % 2 ^ 32 = n := Nat.mod_eq_of_lt (by omega)
  unfold int_of_size_t
  rw [h1, if_pos h]
  exact Int.toNat_natCast n

theorem int_of_size_t_wrap : (int_of_size_t (2 ^ 31)).toNat = 0 := by decide

/-- C8, as stated, fails for a list of 2^31 targets: the count is converted
to `int` and becomes negative, the loop does not run, and the result is -1
although target 0 parses and is matched by the candidate. -/
theorem cpe_name_match_strs_int_count :
    cpe_name_new (some "cpe:/a".toList) =
      some ⟨some ["a".toList], CPE_PART_APP, none, none, none, none, none, none⟩ ∧
    target_hit ⟨some ["a".toList], CPE_PART_APP, none, none, none, none, none, none⟩
      (List.replicate (2 ^ 31) "cpe:/a".toList) 0 ∧
    cpe_name_match_strs (some "cpe:/a".toList)
      (List.replicate (2 ^ 31) "cpe:/a".toList).length
      (List.replicate (2 ^ 31) "cpe:/a".toList) = some (-1) := by
  have hc : cpe_name_new (some "cpe:/a".toList) =
      some ⟨some ["a".toList], CPE_PART_APP, none, none, none, none, none, none⟩ := by decide
  refine ⟨hc, ?_, ?_⟩
  · refine ⟨"cpe:/a".toList, _, ?_, hc, by decide⟩
    rw [List.getElem?_replicate, if_pos (by norm_num)]
  · rw [List.length_replicate]
    unfold cpe_name_match_strs
    rw [hc]
    simp only
    rw [int_of_size_t_wrap]
    rfl

/-- C8, amended: for every candidate string and every list of fewer than 2^31
target strings (the count is converted to the `int` loop counter),
`cpe_name_match_strs` returns -2 exactly when the candidate fails to parse;
otherwise it returns the smallest index whose target parses and is matched by
the candidate, and -1 when there is none; a target that fails to parse is a
non-match and does not stop the scan.  The candidate `cpe:/a:acme:widget`
against `cpe:/a:other:thing`, `cpe:/a:acme:widget:1.0` gives 1. -/
theorem cpe_name_match_strs_first :
    (∀ (cand : CStr) (targets : List CStr), targets.length < 2 ^ 31 →
      (cpe_name_match_strs (some cand) targets.length targets = some (-2) ↔
        cpe_name_new (some cand) = none) ∧
      (∀ c : cpe_name, cpe_name_new (some cand) = some c →
        (∀ i : Nat, target_hit c targets i → (∀ j, j < i → ¬ target_hit c targets j) →
          cpe_name_match_strs (some cand) targets.length targets = some (i : Int)) ∧
        ((∀ i : Nat, ¬ target_hit c targets i) →
          cpe_name_match_strs (some cand) targets.length targets = some (-1)))) ∧
    cpe_name_match_strs (some "cpe:/a:acme:widget".toList) 2
      ["cpe:/a:other:thing".toList, "cpe:/a:acme:widget:1.0".toList] = some 1 ∧
    cpe_name_match_strs (some "cpe:/a:acme:widget".toList) 3
      ["cpe:/a:other:thing".toList, "cpe:/bogus".toList, "cpe:/a:acme:widget:1.0".toList]
        = some 2 := by
  refine ⟨?_, by decide, by decide⟩
  intro cand targets hn
  have hcount := int_of_size_t_small targets.length hn
  have hsome : ∀ c : cpe_name, cpe_name_new (some cand) = some c →
      (∀ i : Nat, target_hit c targets i → (∀ j, j < i → ¬ target_hit c targets j) →
        cpe_name_match_strs (some cand) targets.length targets = some (i : Int)) ∧
      ((∀ i : Nat, ¬ target_hit c targets i) →
        cpe_name_match_strs (some cand) targets.length targets = some (-1)) := by
    intro c hc
    have hcf := cpe_name_new_fields cand c hc
    obtain ⟨l1, l2⟩ := cpe_name_match_strs_loop_first c _ hcf targets targets.length 0 (by omega)
    have hres : cpe_name_match_strs (some cand) targets.length targets =
        cpe_name_match_strs_loop c targets targets.length 0 := by
      simp [cpe_name_match_strs, hc, hcount]
    rw [hres]
    refine ⟨fun i hi hmin => ?_, fun hno => l2 (fun j _ _ => hno j)⟩
    have hlt : i < targets.length := by
      obtain ⟨t, p, h1, _, _⟩ := hi
      by_contra hge
      rw [List.getElem?_eq_none (by omega)] at h1
      cases h1
    exact l1 i (by omega) (by omega) hi (fun m _ hm => hmin m hm)
  refine ⟨⟨fun h => ?_, fun h => by simp [cpe_name_match_strs, h]⟩, hsome⟩
  cases hc : cpe_name_new (some cand) with
  | none => rfl
  | some c =>
    exfalso
    obtain ⟨g1, g2⟩ := hsome c hc
    by_cases hex : ∃ i, target_hit c targets i
    · classical
      have hmin := Nat.find_spec hex
      have := g1 (Nat.find hex) hmin (fun j hj => Nat.find_min hex hj)
      rw [this] at h
      have h2 : ((Nat.find hex : Nat) : Int) = -2 := Option.some.inj h
      omega
    · have := g2 (fun i hi => hex ⟨i, hi⟩)
      rw [this] at h
      cases h

/-- Witness of C8 (amended): one candidate and three targets, the second of
which does not parse. -/
theorem cpe_name_match_strs_first_witness :
    ["cpe:/a:other:thing".toList, "cpe:/bogus".toList, "cpe:/a:acme:widget".toList].length
      < 2 ^ 31 ∧
    (cpe_name_match_strs (some "cpe:/x".toList) 3
        ["cpe:/a:other:thing".toList, "cpe:/bogus".toList, "cpe:/a:acme:widget".toList]
        = some (-2) ↔
      cpe_name_new (some "cpe:/x".toList) = none) :=
  ⟨by decide,
    (cpe_name_match_strs_first.1 "cpe:/x".toList
      ["cpe:/a:other:thing".toList, "cpe:/bogus".toList, "cpe:/a:acme:widget".toList]
      (by decide)).1⟩

/-! ## Results that `cpe_name_new` does not look at -/

/-- C4 (evaluation at `cpe:/a:acme:wid%2`): the grammar accepts the string,
`cpe_urldecode` reports failure on the field `wid%2` and leaves `wid`, and
`cpe_name_new` still returns a name, with product `wid`; the well-formed
`cpe:/a:acme:wid%20get` gives product `wid get`. -/
theorem cpe_name_new_bad_escape :
    cpe_name_check "cpe:/a:acme:wid%2".toList = true ∧
    cpe_urldecode "wid%2".toList = (false, "wid".toList) ∧
    cpe_name_new (some "cpe:/a:acme:wid%2".toList) =
      some { fields_ := some ["a".toList, "acme".toList, "wid".toList],
             part := CPE_PART_APP, vendor := some "acme".toList,
             product := some "wid".toList, version := none,
             update := none, edition := none, language := none } ∧
    cpe_name_new (some "cpe:/a:acme:wid%20get".toList) =
      some { fields_ := some ["a".toList, "acme".toList, "wid get".toList],
             part := CPE_PART_APP, vendor := some "acme".toList,
             product := some "wid get".toList, version := none,
             update := none, edition := none, language := none } := by
  refine ⟨by decide, by decide, by decide, by decide⟩

/-- C5 (evaluation at `cpe:/` and `cpe:/:acme`): the grammar accepts both,
`cpe_assign_values` returns false on the empty field 0, and `cpe_name_new`
still returns a name, with the part unspecified and no attribute. -/
theorem cpe_name_new_empty_part :
    cpe_name_check "cpe:/".toList = true ∧
    (cpe_assign_values (some { cpe_name_zero with fields_ := some [[]] }) (some [[]])).1 = false ∧
    cpe_name_new (some "cpe:/".toList) =
      some { fields_ := some [[]], part := CPE_PART_NONE, vendor := none, product := none,
             version := none, update := none, edition := none, language := none } ∧
    cpe_name_check "cpe:/:acme".toList = true ∧
    cpe_name_new (some "cpe:/:acme".toList) =
      some { fields_ := some [[], "acme".toList], part := CPE_PART_NONE, vendor := none,
             product := none, version := none, update := none, edition := none,
             language := none } := by
  refine ⟨by decide, by decide, by decide, by decide, by decide⟩

/-! ## Characters -/

theorem char_le_iff (a b : Char) : a ≤ b ↔ a.toNat ≤ b.toNat := Iff.rfl

theorem char_eq_iff (a b : Char) : a = b ↔ a.toNat = b.toNat := by
  constructor
  · intro h; rw [h]
  · intro h
    have := congrArg Char.ofNat h
    simpa [Char.ofNat_toNat] using this

theorem toLower_other (d : Char) (h : ¬ (65 ≤ d.toNat ∧ d.toNat ≤ 90)) : d.toLower = d := by
  unfold Char.toLower
  simp only
  rw [if_neg]
  simpa using h

theorem toUpper_other (d : Char) (h : ¬ (97 ≤ d.toNat ∧ d.toNat ≤ 122)) : d.toUpper = d := by
  unfold Char.toUpper
  simp only
  rw [if_neg]
  simpa using h

/-- A property of characters holds everywhere once it holds on the upper-case
letters, on the lower-case letters, and on the characters that the case
conversions leave alone. -/
theorem char_cases (P : Char → Prop)
    (hup : ∀ n, 65 ≤ n → n ≤ 90 → P (Char.ofNat n))
    (hlo : ∀ n, 97 ≤ n → n ≤ 122 → P (Char.ofNat n))
    (hot : ∀ d : Char, d.toLower = d → d.toUpper = d →
      ¬ (65 ≤ d.toNat ∧ d.toNat ≤ 90) → ¬ (97 ≤ d.toNat ∧ d.toNat ≤ 122) → P d) :
    ∀ d, P d := by
  intro d
  by_cases h1 : 65 ≤ d.toNat ∧ d.toNat ≤ 90
  · have := hup d.toNat h1.1 h1.2
    rwa [Char.ofNat_toNat] at this
  · by_cases h2 : 97 ≤ d.toNat ∧ d.toNat ≤ 122
    · have := hlo d.toNat h2.1 h2.2
      rwa [Char.ofNat_toNat] at this
    · exact hot d (toLower_other d h1) (toUpper_other d h2) h1 h2

theorem cls_field_eq : ∀ d : Char, cls_match CLS_FIELD d = field_char d := by
  apply char_cases
  · intro n h1 h2
    interval_cases n <;> decide
  · intro n h1 h2
    interval_cases n <;> decide
  · intro d hl hu h1 h2
    rw [Bool.eq_iff_iff]
    simp only [cls_match, CLS_FIELD, field_char, tolower, toupper, hl, hu, List.any_cons,
      List.any_nil, Bool.or_eq_true, Bool.and_eq_true, decide_eq_true_eq, beq_iff_eq,
      char_le_iff, char_eq_iff, Bool.or_false, Bool.or_self]
    have e1 : 'a'.toNat = 97 := rfl
    have e2 : 'z'.toNat = 122 := rfl
    have e3 : 'A'.toNat = 65 := rfl
    have e4 : 'Z'.toNat = 90 := rfl
    have e5 : '0'.toNat = 48 := rfl
    have e6 : '9'.toNat = 57 := rfl
    have e7 : '.'.toNat = 46 := rfl
    have e8 : '_'.toNat = 95 := rfl
    have e9 : '~'.toNat = 126 := rfl
    have e10 : '%'.toNat = 37 := rfl
    have e11 : '-'.toNat = 45 := rfl
    rw [e1, e2, e3, e4, e5, e6, e7, e8, e9, e10, e11]
    omega

theorem cls_part_eq : ∀ d : Char, cls_match CLS_PART d = part_char d := by
  apply char_cases
  · intro n h1 h2
    interval_cases n <;> decide
  · intro n h1 h2
    interval_cases n <;> decide
  · intro d hl hu h1 h2
    rw [Bool.eq_iff_iff]
    simp only [cls_match, CLS_PART, part_char, tolower, toupper, hl, hu, List.any_cons,
      List.any_nil, Bool.or_eq_true, Bool.and_eq_true, decide_eq_true_eq, beq_iff_eq,
      char_le_iff, char_eq_iff, Bool.or_false, Bool.or_self]
    have e1 : 'a'.toNat = 97 := rfl
    have e2 : 'h'.toNat = 104 := rfl
    have e3 : 'o'.toNat = 111 := rfl
    have e4 : 'A'.toNat = 65 := rfl
    have e5 : 'H'.toNat = 72 := rfl
    have e6 : 'O'.toNat = 79 := rfl
    rw [e1, e2, e3, e4, e5, e6]
    omega

theorem tolower_eq_colon : ∀ d : Char, tolower d = tolower ':' ↔ d = ':' := by
  apply char_cases
  · intro n h1 h2
    interval_cases n <;> decide
  · intro n h1 h2
    interval_cases n <;> decide
  · intro d hl _ _ _
    have : tolower ':' = ':' := by decide
    rw [this]
    unfold tolower
    rw [hl]

/-! ## The grammar check -/

theorem mem_pcre_chr (n : Nat) (c : Char) (s r : List Char) :
    r ∈ pcre_match n (.chr c) s ↔ ∃ d, s = d :: r ∧ tolower d = tolower c := by
  cases s with
  | nil => simp [pcre_match]
  | cons d t =>
    by_cases h : tolower d = tolower c
    · simp only [pcre_match, h, if_true, List.mem_singleton]
      constructor
      · rintro rfl; exact ⟨d, rfl, h⟩
      · rintro ⟨e, he, _⟩
        exact (List.cons.inj he).2.symm
    · simp only [pcre_match, h, if_false, List.not_mem_nil, false_iff]
      rintro ⟨e, he, h2⟩
      exact h ((List.cons.inj he).1 ▸ h2)

theorem mem_pcre_cls (n : Nat) (R : List (Char × Char)) (s r : List Char) :
    r ∈ pcre_match n (.cls R) s ↔ ∃ d, s = d :: r ∧ cls_match R d = true := by
  cases s with
  | nil => simp [pcre_match]
  | cons d t =>
    by_cases h : cls_match R d = true
    · simp only [pcre_match, h, if_true, List.mem_singleton]
      constructor
      · rintro rfl; exact ⟨d, rfl, h⟩
      · rintro ⟨e, he, _⟩
        exact (List.cons.inj he).2.symm
    · simp only [pcre_match, h, Bool.false_eq_true, if_false, List.not_mem_nil, false_iff]
      rintro ⟨e, he, h2⟩
      exact h ((List.cons.inj he).1 ▸ h2)

theorem mem_pcre_seq (n : Nat) (a b : Regex) (s r : List Char) :
    r ∈ pcre_match n (.seq a b) s ↔ ∃ m, m ∈ pcre_match n a s ∧ r ∈ pcre_match n b m := by
  simp [pcre_match, List.mem_flatMap]

theorem mem_star_cls (n : Nat) (R : List (Char × Char)) (r : List Char) :
    ∀ (fuel : Nat) (s : List Char), s.length ≤ fuel →
      (r ∈ star_loop (pcre_match n (.cls R)) fuel s ↔
        ∃ w, s = w ++ r ∧ ∀ c ∈ w, cls_match R c = true) := by
  intro fuel
  induction fuel with
  | zero =>
    intro s hs
    have : s = [] := List.length_eq_zero.1 (by omega)
    subst this
    simp only [star_loop, List.mem_singleton]
    constructor
    · rintro rfl; exact ⟨[], rfl, by simp⟩
    · rintro ⟨w, hw, _⟩
      have := congrArg List.length hw
      simp at this
      exact List.length_eq_zero.1 (by omega)
  | succ k ih =>
    intro s hs
    simp only [star_loop, List.mem_cons, List.mem_flatMap, mem_pcre_cls]
    constructor
    · rintro (rfl | ⟨m, ⟨d, rfl, hd⟩, hm⟩)
      · exact ⟨[], rfl, by simp⟩
      · obtain ⟨w, rfl, hw⟩ := (ih m (by simp at hs; omega)).1 hm
        refine ⟨d :: w, rfl, ?_⟩
        intro c hc
        rcases List.mem_cons.1 hc with rfl | hc
        · exact hd
        · exact hw c hc
    · rintro ⟨w, rfl, hw⟩
      cases w with
      | nil => left; rfl
      | cons d w =>
        right
        refine ⟨w ++ r, ⟨d, rfl, hw d (List.mem_cons_self _ _)⟩, ?_⟩
        exact (ih (w ++ r) (by simp at hs ⊢; omega)).2
          ⟨w, rfl, fun c hc => hw c (List.mem_cons_of_mem _ hc)⟩

/-- The group `(:[a-z0-9._~%-]*)` of the pattern. -/
theorem mem_pcre_group (n : Nat) (s r : List Char) :
    r ∈ pcre_match n (.seq (.chr ':') (.star (.cls CLS_FIELD))) s ↔
      ∃ g, s = ':' :: g ++ r ∧ ∀ c ∈ g, field_char c = true := by
  rw [mem_pcre_seq]
  constructor
  · rintro ⟨m, hm, hr⟩
    obtain ⟨d, rfl, hd⟩ := (mem_pcre_chr n ':' s m).1 hm
    have hd2 := (tolower_eq_colon d).1 hd
    subst hd2
    simp only [pcre_match] at hr
    obtain ⟨w, rfl, hw⟩ := (mem_star_cls n CLS_FIELD r m.length m (Nat.le_refl _)).1 hr
    exact ⟨w, rfl, fun c hc => by rw [← cls_field_eq]; exact hw c hc⟩
  · rintro ⟨g, rfl, hg⟩
    refine ⟨g ++ r, (mem_pcre_chr n ':' _ _).2 ⟨':', rfl, rfl⟩, ?_⟩
    simp only [pcre_match]
    exact (mem_star_cls n CLS_FIELD r _ _ (Nat.le_refl _)).2
      ⟨g, rfl, fun c hc => by rw [cls_field_eq]; exact hg c hc⟩

theorem mem_rep_group (n : Nat) (r : List Char) :
    ∀ (hi : Nat) (s : List Char),
      (r ∈ rep_loop (pcre_match n (.seq (.chr ':') (.star (.cls CLS_FIELD)))) 0 hi s ↔
        ∃ gs : List (List Char), gs.length ≤ hi ∧ (∀ g ∈ gs, ∀ c ∈ g, field_char c = true) ∧
          s = (gs.map (fun g => ':' :: g)).flatten ++ r) := by
  intro hi
  induction hi with
  | zero =>
    intro s
    simp only [rep_loop, if_true, List.mem_singleton]
    constructor
    · rintro rfl; exact ⟨[], by simp, by simp, by simp⟩
    · rintro ⟨gs, hl, _, rfl⟩
      have : gs = [] := List.length_eq_zero.1 (by omega)
      subst this
      simp
  | succ k ih =>
    intro s
    simp only [rep_loop, if_true, List.mem_append, List.mem_singleton, List.mem_flatMap,
      mem_pcre_group, Nat.zero_sub]
    constructor
    · rintro (rfl | ⟨m, ⟨g, rfl, hg⟩, hm⟩)
      · exact ⟨[], by simp, by simp, by simp⟩
      · obtain ⟨gs, hl, hgs, rfl⟩ := (ih m).1 hm
        refine ⟨g :: gs, by simp; omega, ?_, by simp⟩
        intro x hx
        rcases List.mem_cons.1 hx with rfl | hx
        · exact hg
        · exact hgs x hx
    · rintro ⟨gs, hl, hgs, rfl⟩
      cases gs with
      | nil => left; simp
      | cons g gs =>
        right
        refine ⟨(gs.map (fun g => ':' :: g)).flatten ++ r,
          ⟨g, by simp, hgs g (List.mem_cons_self _ _)⟩, ?_⟩
        exact (ih _).2 ⟨gs, by simp at hl; omega,
          fun x hx => hgs x (List.mem_cons_of_mem _ hx), rfl⟩

theorem caseless_schema (pre : List Char) :
    caseless_eq pre CPE_SCHEMA ↔
      ∃ d1 d2 d3 d4 d5, pre = [d1, d2, d3, d4, d5] ∧ tolower d1 = tolower 'c' ∧
        tolower d2 = tolower 'p' ∧ tolower d3 = tolower 'e' ∧ tolower d4 = tolower ':' ∧
        tolower d5 = tolower '/' := by
  unfold caseless_eq CPE_SCHEMA tolower
  constructor
  · intro h
    rcases pre with _ | ⟨d1, _ | ⟨d2, _ | ⟨d3, _ | ⟨d4, _ | ⟨d5, _ | ⟨d6, r⟩⟩⟩⟩⟩⟩ <;>
      simp only [List.map_cons, List.map_nil, List.cons.injEq, reduceCtorEq, and_false,
        false_and, and_true] at h
    exact ⟨d1, d2, d3, d4, d5, rfl, h.1, h.2.1, h.2.2.1, h.2.2.2.1, h.2.2.2.2⟩
  · rintro ⟨d1, d2, d3, d4, d5, rfl, h1, h2, h3, h4, h5⟩
    simp only [List.map_cons, List.map_nil, h1, h2, h3, h4, h5]

theorem mem_pcre_body (n : Nat) (s r : List Char) :
    r ∈ pcre_match n (Regex.seqs
        [.chr 'c', .chr 'p', .chr 'e', .chr ':', .chr '/', .opt (.cls CLS_PART),
         .rep (.seq (.chr ':') (.star (.cls CLS_FIELD))) 0 6] .eol) s ↔
      ∃ (pre part : List Char) (gs : List (List Char)),
        s = pre ++ part ++ (gs.map (fun g => ':' :: g)).flatten ++ r ∧
        caseless_eq pre CPE_SCHEMA ∧
        (part = [] ∨ ∃ c, part = [c] ∧ part_char c = true) ∧
        gs.length ≤ 6 ∧ (∀ g ∈ gs, ∀ c ∈ g, field_char c = true) ∧
        (r = [] ∨ r = ['\n']) := by
  simp only [Regex.seqs, mem_pcre_seq, mem_pcre_chr]
  constructor
  · rintro ⟨m1, ⟨d1, rfl, h1⟩, m2, ⟨d2, rfl, h2⟩, m3, ⟨d3, rfl, h3⟩, m4, ⟨d4, rfl, h4⟩,
      m5, ⟨d5, rfl, h5⟩, m6, hopt, m7, hrep, heol⟩
    have hpre : caseless_eq [d1, d2, d3, d4, d5] CPE_SCHEMA :=
      (caseless_schema _).2 ⟨d1, d2, d3, d4, d5, rfl, h1, h2, h3, h4, h5⟩
    simp only [pcre_match] at hrep heol
    obtain ⟨gs, hl, hgs, rfl⟩ := (mem_rep_group n m7 6 m6).1 hrep
    have hr : m7 = r ∧ (r = [] ∨ r = ['\n']) := by
      by_cases hm : m7 = [] ∨ m7 = ['\n']
      · rw [if_pos hm] at heol
        have := List.mem_singleton.1 heol
        subst this
        exact ⟨rfl, hm⟩
      · rw [if_neg hm] at heol
        cases heol
    obtain ⟨rfl, hr2⟩ := hr
    simp only [pcre_match, List.mem_append, List.mem_singleton] at hopt
    rcases hopt with hopt | rfl
    · obtain ⟨c, rfl, hc⟩ := (mem_pcre_cls n CLS_PART m5 _).1 hopt
      refine ⟨[d1, d2, d3, d4, d5], [c], gs, by simp, hpre,
        Or.inr ⟨c, rfl, by rw [← cls_part_eq]; exact hc⟩, hl, hgs, hr2⟩
    · exact ⟨[d1, d2, d3, d4, d5], [], gs, by simp, hpre, Or.inl rfl, hl, hgs, hr2⟩
  · rintro ⟨pre, part, gs, rfl, hpre, hpart, hl, hgs, hr⟩
    obtain ⟨d1, d2, d3, d4, d5, rfl, h1, h2, h3, h4, h5⟩ := (caseless_schema pre).1 hpre
    refine ⟨_, ⟨d1, rfl, h1⟩, _, ⟨d2, rfl, h2⟩, _, ⟨d3, rfl, h3⟩, _, ⟨d4, rfl, h4⟩,
      _, ⟨d5, rfl, h5⟩, (gs.map (fun g => ':' :: g)).flatten ++ r, ?_, r, ?_, ?_⟩
    · simp only [pcre_match, List.mem_append, List.mem_singleton]
      rcases hpart with rfl | ⟨c, rfl, hc⟩
      · right; simp
      · left
        exact (mem_pcre_cls n CLS_PART _ _).2 ⟨c, rfl, by rw [cls_part_eq]; exact hc⟩
    · simp only [pcre_match]
      exact (mem_rep_group n r 6 _).2 ⟨gs, hl, hgs, rfl⟩
    · simp only [pcre_match]
      rw [if_pos hr]
      exact List.mem_singleton.2 rfl

/-- Full description of the strings that `cpe_name_check` accepts. -/
theorem cpe_name_check_iff (s : CStr) :
    cpe_name_check s = true ↔
      ∃ (pre part : List Char) (gs : List (List Char)) (nl : List Char),
        s = pre ++ part ++ (gs.map (fun g => ':' :: g)).flatten ++ nl ∧
        caseless_eq pre CPE_SCHEMA ∧
        (part = [] ∨ ∃ c, part = [c] ∧ part_char c = true) ∧
        gs.length ≤ 6 ∧ (∀ g ∈ gs, ∀ c ∈ g, field_char c = true) ∧
        (nl = [] ∨ nl = ['\n']) := by
  have hexec : cpe_name_check s = true ↔
      ∃ r, r ∈ pcre_match s.length (Regex.seqs
        [.chr 'c', .chr 'p', .chr 'e', .chr ':', .chr '/', .opt (.cls CLS_PART),
         .rep (.seq (.chr ':') (.star (.cls CLS_FIELD))) 0 6] .eol) s := by
    unfold cpe_name_check pcre_exec CPE_REGEX
    rw [List.any_eq_true]
    constructor
    · rintro ⟨t, ht, hne⟩
      have hsuf : t <:+ s := (List.mem_tails t s).1 ht
      cases hm : pcre_match s.length (Regex.seqs
          [.bol, .chr 'c', .chr 'p', .chr 'e', .chr ':', .chr '/', .opt (.cls CLS_PART),
           .rep (.seq (.chr ':') (.star (.cls CLS_FIELD))) 0 6] .eol) t with
      | nil => rw [hm] at hne; simp at hne
      | cons r rs =>
        have hr : r ∈ pcre_match s.length (Regex.seqs
          [.bol, .chr 'c', .chr 'p', .chr 'e', .chr ':', .chr '/', .opt (.cls CLS_PART),
           .rep (.seq (.chr ':') (.star (.cls CLS_FIELD))) 0 6] .eol) t := by
          rw [hm]; exact List.mem_cons_self _ _
        rw [Regex.seqs, mem_pcre_seq] at hr
        obtain ⟨m, hm1, hm2⟩ := hr
        simp only [pcre_match] at hm1
        by_cases hl : t.length = s.length
        · rw [if_pos hl] at hm1
          have e1 := List.mem_singleton.1 hm1
          have e2 : t = s := hsuf.eq_of_length hl
          subst e1 e2
          exact ⟨r, hm2⟩
        · rw [if_neg hl] at hm1
          cases hm1
    · rintro ⟨r, hr⟩
      refine ⟨s, (List.mem_tails s s).2 (List.suffix_refl s), ?_⟩
      have : r ∈ pcre_match s.length (Regex.seqs
          [.bol, .chr 'c', .chr 'p', .chr 'e', .chr ':', .chr '/', .opt (.cls CLS_PART),
           .rep (.seq (.chr ':') (.star (.cls CLS_FIELD))) 0 6] .eol) s := by
        rw [Regex.seqs, mem_pcre_seq]
        exact ⟨s, by simp [pcre_match], hr⟩
      cases hm : pcre_match s.length (Regex.seqs
          [.bol, .chr 'c', .chr 'p', .chr 'e', .chr ':', .chr '/', .opt (.cls CLS_PART),
           .rep (.seq (.chr ':') (.star (.cls CLS_FIELD))) 0 6] .eol) s with
      | nil => rw [hm] at this; cases this
      | cons _ _ => rfl
  rw [hexec]
  constructor
  · rintro ⟨r, hr⟩
    obtain ⟨pre, part, gs, h1, h2, h3, h4, h5, h6⟩ := (mem_pcre_body _ s r).1 hr
    exact ⟨pre, part, gs, r, h1, h2, h3, h4, h5, h6⟩
  · rintro ⟨pre, part, gs, nl, h1, h2, h3, h4, h5, h6⟩
    exact ⟨nl, (mem_pcre_body _ s nl).2 ⟨pre, part, gs, h1, h2, h3, h4, h5, h6⟩⟩

theorem uri_grammar_chars (pre_ok : List Char → Prop) (s : CStr) (h : uri_grammar pre_ok s) :
    ∃ pre body, pre_ok pre ∧ s = pre ++ body ∧
      ∀ c ∈ body, part_char c = true ∨ c = ':' ∨ field_char c = true := by
  obtain ⟨pre, part, gs, hs, hpre, hpart, _, hgs⟩ := h
  refine ⟨pre, part ++ (gs.map (fun g => ':' :: g)).flatten, hpre, by rw [hs, List.append_assoc], ?_⟩
  intro c hc
  rcases List.mem_append.1 hc with hc | hc
  · rcases hpart with rfl | ⟨d, rfl, hd⟩
    · cases hc
    · left
      rw [List.mem_singleton.1 hc]
      exact hd
  · right
    obtain ⟨l, hl, hcl⟩ := List.mem_flatten.1 hc
    obtain ⟨g, hg, rfl⟩ := List.mem_map.1 hl
    rcases List.mem_cons.1 hcl with rfl | hcg
    · left; rfl
    · right; exact hgs g hg c hcg

theorem uri_format_eq (n : cpe_name) :
    uri_format n = CPE_SCHEMA ++ [':'].intercalate (uri_segments n) := by
  simp [uri_format, uri_segments, List.intercalate, List.intersperse]

theorem trim_colons_loop_eq (r : List Char) :
    ∀ i : Nat, i ≤ r.length → (∃ c ∈ r.take i, c ≠ ':') →
      trim_colons_loop r i = some ((r.take i).rdropWhile (fun c => c == ':')) := by
  intro i
  induction i with
  | zero => rintro _ ⟨c, hc, _⟩; simp at hc
  | succ i ih =>
    intro hi hex
    have hlt : i < r.length := by omega
    have hget : r[i]? = some r[i] := List.getElem?_eq_getElem hlt
    have htake : r.take (i + 1) = r.take i ++ [r[i]] := by
      rw [List.take_succ, hget]; rfl
    rw [trim_colons_loop, hget, htake]
    by_cases hc : r[i] = ':'
    · rw [hc, if_pos rfl, List.rdropWhile_concat_pos _ _ _ (by simp)]
      apply ih (by omega)
      obtain ⟨c, hmem, hne⟩ := hex
      rw [htake] at hmem
      rcases List.mem_append.1 hmem with h | h
      · exact ⟨c, h, hne⟩
      · rw [List.mem_singleton.1 h] at hne
        exact absurd hc hne
    · have hne : ¬ (some r[i] = some ':') := fun h => hc (Option.some.inj h)
      rw [if_neg hne, List.rdropWhile_concat_neg _ _ _ (by simpa using hc)]

theorem intercalate_concat (sep : List Char) (last : List Char) :
    ∀ init : List (List Char), init ≠ [] →
      sep.intercalate (init ++ [last]) = sep.intercalate init ++ sep ++ last := by
  intro init
  induction init with
  | nil => intro h; exact absurd rfl h
  | cons a rest ih =>
    intro _
    cases rest with
    | nil => simp [List.intercalate, List.intersperse]
    | cons b rest =>
      have h1 : sep.intercalate (a :: (b :: rest ++ [last])) =
          a ++ sep ++ sep.intercalate (b :: rest ++ [last]) := by
        simp [List.intercalate, List.intersperse]
      have h2 : sep.intercalate (a :: b :: rest) = a ++ sep ++ sep.intercalate (b :: rest) := by
        simp [List.intercalate, List.intersperse]
      have := ih (by simp)
      simp only [List.cons_append] at this h1 ⊢
      rw [h1, this, h2]
      simp [List.append_assoc]

theorem rdropWhile_colon_segments (pre : List Char)
    (hpre : pre.rdropWhile (fun c => c == ':') = pre) (segs : List (List Char)) :
    (∀ seg, (segs.rdropWhile (fun seg => seg.isEmpty)).getLast? = some seg →
      seg.getLast? ≠ some ':') →
    (pre ++ [':'].intercalate segs).rdropWhile (fun c => c == ':') =
      pre ++ [':'].intercalate (segs.rdropWhile (fun seg => seg.isEmpty)) := by
  induction segs using List.reverseRecOn with
  | nil => intro _; simpa [List.intercalate] using hpre
  | append_singleton init last ih =>
    intro h
    by_cases hl : last = []
    · subst hl
      rw [List.rdropWhile_concat_pos _ _ _ (by simp)] at h ⊢
      by_cases hi : init = []
      · subst hi
        simpa [List.intercalate] using hpre
      · rw [intercalate_concat _ _ init hi, List.append_nil, ← List.append_assoc,
          List.rdropWhile_concat_pos _ _ _ (by simp)]
        exact ih h
    · have hne : ¬ ((fun seg : List Char => seg.isEmpty) last = true) := by
        simpa using hl
      rw [List.rdropWhile_concat_neg _ _ _ hne] at h ⊢
      have hlast := h last (by simp)
      obtain ⟨body, x, rfl⟩ : ∃ body x, last = body ++ [x] :=
        ⟨last.dropLast, last.getLast hl, (List.dropLast_append_getLast hl).symm⟩
      have hx : x ≠ ':' := by
        intro e
        apply hlast
        simp [e]
      have hshape : ∃ front, pre ++ [':'].intercalate (init ++ [body ++ [x]]) = front ++ [x] := by
        by_cases hi : init = []
        · subst hi
          exact ⟨pre ++ body, by simp [List.intercalate]⟩
        · exact ⟨pre ++ [':'].intercalate init ++ [':'] ++ body, by
            rw [intercalate_concat _ _ init hi]; simp [List.append_assoc]⟩
      obtain ⟨front, hf⟩ := hshape
      rw [hf, List.rdropWhile_concat_neg _ _ _ (by simpa using hx)]

theorem cpe_name_get_uri_eq (n : cpe_name) (fs : List CStr) (h : n.fields_ = some fs) :
    cpe_name_get_uri (some n) = some ((uri_format n).rdropWhile (fun c => c == ':')) := by
  have := trim_colons_loop_eq (uri_format n) (uri_format n).length (Nat.le_refl _)
    ⟨'/', by rw [List.take_length, uri_format_eq]; simp [CPE_SCHEMA], by decide⟩
  rw [List.take_length] at this
  simp [cpe_name_get_uri, h, this]

theorem cpe_name_check_swap (pre B : List Char) (d x : Char)
    (h : cpe_name_check (pre ++ d :: B) = true) (hpre : caseless_eq pre CPE_SCHEMA)
    (hd : part_char d = true) (hx : part_char x = true) :
    cpe_name_check (CPE_SCHEMA ++ x :: B) = true := by
  obtain ⟨pre2, part, gs, nl, h1, h2, h3, h4, h5, h6⟩ := (cpe_name_check_iff _).1 h
  obtain ⟨a1, a2, a3, a4, a5, rfl, -⟩ := (caseless_schema pre).1 hpre
  obtain ⟨b1, b2, b3, b4, b5, rfl, -⟩ := (caseless_schema pre2).1 h2
  simp only [List.cons_append, List.nil_append, List.cons.injEq] at h1
  obtain ⟨-, -, -, -, -, h1⟩ := h1
  have hB : ∃ (gs2 : List (List Char)) (nl2 : List Char), B = (gs2.map (fun g => ':' :: g)).flatten ++ nl2 ∧ gs2.length ≤ 6 ∧
      (∀ g ∈ gs2, ∀ c ∈ g, field_char c = true) ∧ (nl2 = [] ∨ nl2 = ['\n']) := by
    rcases h3 with rfl | ⟨c, rfl, _⟩
    · exfalso
      cases gs with
      | nil =>
        rcases h6 with rfl | rfl
        · simp at h1
        · simp at h1
          rw [h1.1] at hd
          revert hd
          decide
      | cons g gs =>
        simp at h1
        rw [h1.1] at hd
        revert hd
        decide
    · simp only [List.cons_append, List.nil_append, List.cons.injEq] at h1
      exact ⟨gs, nl, h1.2, h4, h5, h6⟩
  obtain ⟨gs2, nl2, rfl, g1, g2, g3⟩ := hB
  exact (cpe_name_check_iff _).2
    ⟨CPE_SCHEMA, [x], gs2, nl2, by simp, rfl, Or.inr ⟨x, rfl, hx⟩, g1, g2, g3⟩

theorem cpe_name_check_drop_colon (t : List Char) (h : cpe_name_check (t ++ [':']) = true) :
    cpe_name_check t = true := by
  obtain ⟨pre, part, gs, nl, h1, h2, h3, h4, h5, h6⟩ := (cpe_name_check_iff _).1 h
  rcases h6 with rfl | rfl
  · rw [List.append_nil] at h1
    rcases List.eq_nil_or_concat gs with rfl | ⟨gi, gl, rfl⟩
    · exfalso
      simp only [List.map_nil, List.flatten_nil, List.append_nil] at h1
      obtain ⟨a1, a2, a3, a4, a5, rfl, -, -, -, -, ha5⟩ := (caseless_schema pre).1 h2
      rcases h3 with rfl | ⟨c, rfl, hc⟩
      · have e : t ++ [':'] = [a1, a2, a3, a4] ++ [a5] := by rw [h1]; rfl
        have := (List.append_inj' e rfl).2
        simp only [List.cons.injEq, and_true] at this
        rw [← this] at ha5
        revert ha5
        decide
      · have e : t ++ [':'] = [a1, a2, a3, a4, a5] ++ [c] := by rw [h1]
        have := (List.append_inj' e rfl).2
        simp only [List.cons.injEq, and_true] at this
        rw [← this] at hc
        revert hc
        decide
    · have hgl : ∀ c ∈ gl, field_char c = true := h5 gl (by simp)
      rcases List.eq_nil_or_concat gl with rfl | ⟨gb, c, rfl⟩
      · have e : t ++ [':'] = (pre ++ part ++ (gi.map (fun g => ':' :: g)).flatten) ++ [':'] := by
          rw [h1]; simp
        have ht := List.append_cancel_right e
        exact (cpe_name_check_iff _).2 ⟨pre, part, gi, [], by rw [ht]; simp, h2, h3,
          by simp at h4; omega, fun g hg => h5 g (by simp [hg]), Or.inl rfl⟩
      · exfalso
        have e : t ++ [':'] =
            (pre ++ part ++ (gi.map (fun g => ':' :: g)).flatten ++ ':' :: gb) ++ [c] := by
          rw [h1]; simp
        have := (List.append_inj' e rfl).2
        simp only [List.cons.injEq, and_true] at this
        have hc := hgl c (by simp)
        rw [← this] at hc
        revert hc
        decide
  · exfalso
    have := (List.append_inj' h1 rfl).2
    revert this
    decide

theorem cpe_name_check_drop_colons (t : List Char) :
    ∀ k : Nat, cpe_name_check (t ++ List.replicate k ':') = true → cpe_name_check t = true := by
  intro k
  induction k with
  | zero => intro h; simpa using h
  | succ k ih =>
    intro h
    apply ih
    apply cpe_name_check_drop_colon
    rw [List.append_assoc, ← List.replicate_succ']
    exact h

theorem cstr_of_no_nul (f : List Char) (h : ∀ c ∈ f, c ≠ NUL) : cstr f = f := by
  unfold cstr
  rw [List.takeWhile_eq_self_iff]
  intro c hc
  simpa using h c hc

theorem decode_field_id (f : CStr) (hp : '%' ∉ f) (hn : ∀ c ∈ f, c ≠ NUL) :
    cstr (cpe_urldecode f).2 = f := by
  have : cpe_urldecode f = (true, f) := by
    simpa [cpe_urldecode] using cpe_urldecode_loop_no_percent f hp []
  rw [this]
  exact cstr_of_no_nul f hn

theorem decode_fields_id (L : List CStr) (h : ∀ f ∈ L, '%' ∉ f ∧ ∀ c ∈ f, c ≠ NUL) :
    L.map (fun f => cstr (cpe_urldecode f).2) = L := by
  induction L with
  | nil => rfl
  | cons a rest ih =>
    have ha := h a (List.mem_cons_self _ _)
    rw [List.map_cons, decode_field_id a ha.1 ha.2,
      ih (fun f hf => h f (List.mem_cons_of_mem _ hf))]

theorem intercalate_groups (f0 : List Char) (R : List (List Char)) :
    [':'].intercalate (f0 :: R) = f0 ++ (R.map (fun g => ':' :: g)).flatten := by
  induction R generalizing f0 with
  | nil => simp [List.intercalate]
  | cons g R ih =>
    have h1 : [':'].intercalate (f0 :: g :: R) = f0 ++ [':'] ++ [':'].intercalate (g :: R) := by
      simp [List.intercalate, List.intersperse]
    rw [h1, ih g]
    simp

theorem cpe_split_groups (R : List (List Char)) (hR : ∀ g ∈ R, ':' ∉ g) :
    ∀ f0 : List Char, ':' ∉ f0 →
      cpe_split (f0 ++ (R.map (fun g => ':' :: g)).flatten) [':'] = f0 :: R := by
  induction R with
  | nil =>
    intro f0 h0
    simp only [List.map_nil, List.flatten_nil, List.append_nil]
    exact cpe_split_no_delim [':'] f0 (fun c hc hm => h0 (by rw [List.mem_singleton.1 hm] at hc; exact hc))
  | cons g R ih =>
    intro f0 h0
    have e : f0 ++ ((g :: R).map (fun g => ':' :: g)).flatten =
        f0 ++ ':' :: (g ++ (R.map (fun g => ':' :: g)).flatten) := by simp
    rw [e, cpe_split_append [':'] f0 _ ':'
      (fun c hc hm => h0 (by rw [List.mem_singleton.1 hm] at hc; exact hc)) (by simp),
      ih (fun x hx => hR x (List.mem_cons_of_mem _ hx)) g (hR g (List.mem_cons_self _ _))]

theorem mem_intercalate (sep : List Char) (c : Char) (f : List Char) (hc : c ∈ f) :
    ∀ L : List (List Char), f ∈ L → c ∈ sep.intercalate L := by
  intro L
  induction L with
  | nil => intro h; cases h
  | cons a rest ih =>
    intro hf
    cases rest with
    | nil =>
      have : f = a := by simpa using hf
      subst this
      simpa [List.intercalate] using hc
    | cons b r =>
      have h1 : sep.intercalate (a :: b :: r) = a ++ sep ++ sep.intercalate (b :: r) := by
        simp [List.intercalate, List.intersperse]
      rw [h1]
      rcases List.mem_cons.1 hf with rfl | hf
      · exact List.mem_append_left _ (List.mem_append_left _ hc)
      · exact List.mem_append_right _ (ih hf)

theorem rdropWhile_empty_mem (R : List (List Char)) :
    ∀ g, g ∈ R.rdropWhile (fun seg => seg.isEmpty) → g ∈ R := by
  induction R using List.reverseRecOn with
  | nil => intro g hg; simp at hg
  | append_singleton init last ih =>
    intro g hg
    rw [List.rdropWhile_concat] at hg
    split_ifs at hg
    · exact List.mem_append_left _ (ih g hg)
    · exact hg

theorem rdropWhile_empty_getD (R : List (List Char)) (k : Nat) :
    (R.rdropWhile (fun seg => seg.isEmpty)).getD k [] = R.getD k [] := by
  induction R using List.reverseRecOn with
  | nil => rfl
  | append_singleton init last ih =>
    rw [List.rdropWhile_concat]
    split_ifs with hl
    · have : last = [] := by simpa using hl
      subst this
      rw [ih]
      simp only [List.getD_eq_getElem?_getD]
      by_cases hk : k < init.length
      · rw [List.getElem?_append_left hk]
      · rw [List.getElem?_eq_none (by omega)]
        by_cases hk2 : k = init.length
        · subst hk2; simp
        · rw [List.getElem?_eq_none (by simp; omega)]
    · rfl

theorem groups_rdropWhile_empty (R : List (List Char)) :
    ∃ k : Nat, (R.map (fun g => ':' :: g)).flatten =
      ((R.rdropWhile (fun seg => seg.isEmpty)).map (fun g => ':' :: g)).flatten
        ++ List.replicate k ':' := by
  induction R using List.reverseRecOn with
  | nil => exact ⟨0, by simp⟩
  | append_singleton init last ih =>
    rw [List.rdropWhile_concat]
    split_ifs with hl
    · have : last = [] := by simpa using hl
      subst this
      obtain ⟨k, hk⟩ := ih
      refine ⟨k + 1, ?_⟩
      rw [List.map_append, List.flatten_append, hk, List.replicate_succ']
      simp
    · exact ⟨0, by simp⟩

theorem rdropWhile_empty_cons (a : List Char) (ha : a ≠ []) (R : List (List Char)) :
    (a :: R).rdropWhile (fun seg => seg.isEmpty) = a :: R.rdropWhile (fun seg => seg.isEmpty) := by
  induction R using List.reverseRecOn with
  | nil =>
    have := List.rdropWhile_concat_neg (fun seg : List Char => seg.isEmpty) [] a (by simpa using ha)
    simpa using this
  | append_singleton init last ih =>
    have e : a :: (init ++ [last]) = (a :: init) ++ [last] := rfl
    rw [e, List.rdropWhile_concat, List.rdropWhile_concat, ih]
    split_ifs <;> rfl

theorem rdropWhile_empty_replicate (A : List (List Char)) :
    ∀ m : Nat, (A ++ List.replicate m []).rdropWhile (fun seg => seg.isEmpty) =
      A.rdropWhile (fun seg => seg.isEmpty) := by
  intro m
  induction m with
  | zero => simp
  | succ m ih =>
    rw [List.replicate_succ', ← List.append_assoc, List.rdropWhile_concat_pos _ _ _ (by simp), ih]

theorem attr_at_getD (l : List CStr) (k : Nat) :
    attr_at l k = if l.getD k [] = [] then none else some (l.getD k []) := by
  unfold attr_at
  cases h : l[k]? with
  | none => simp [List.getD, h]
  | some f => simp [List.getD, h]

theorem as_str_attr_at (l : List CStr) (k : Nat) : as_str (attr_at l k) = l.getD k [] := by
  rw [attr_at_getD]
  split_ifs with h
  · rw [h]; rfl
  · rfl

theorem field_char_ne (c : Char) (h : field_char c = true) : c ≠ ':' ∧ c ≠ NUL := by
  constructor <;> (rintro rfl; revert h; decide)

theorem part_char_ne (c : Char) (h : part_char c = true) : c ≠ ':' ∧ c ≠ NUL := by
  constructor <;> (rintro rfl; revert h; decide)

theorem count_colon_groups (gs : List (List Char))
    (h : ∀ g ∈ gs, ∀ c ∈ g, field_char c = true) :
    ((gs.map (fun g => ':' :: g)).flatten).count ':' = gs.length := by
  induction gs with
  | nil => rfl
  | cons g gs ih =>
    have hg : ':' ∉ g := fun hm => (field_char_ne ':' (h g (List.mem_cons_self _ _) ':' hm)).1 rfl
    simp only [List.map_cons, List.flatten_cons, List.cons_append, List.count_cons_self,
      List.count_append, List.length_cons]
    rw [List.count_eq_zero_of_not_mem hg, ih (fun x hx => h x (List.mem_cons_of_mem _ hx))]
    omega

/-- What the grammar check guarantees about the text after the five leading
characters. -/
theorem cpe_name_check_body (s : CStr) (h : cpe_name_check s = true) :
    caseless_eq (s.take 5) CPE_SCHEMA ∧ s = s.take 5 ++ s.drop 5 ∧
    (∀ c ∈ s.drop 5, c ≠ NUL) ∧ (s.drop 5).count ':' ≤ 6 := by
  obtain ⟨pre, part, gs, nl, h1, h2, h3, h4, h5, h6⟩ := (cpe_name_check_iff _).1 h
  obtain ⟨a1, a2, a3, a4, a5, rfl, -⟩ := (caseless_schema pre).1 h2
  have ht : s.take 5 = [a1, a2, a3, a4, a5] := by rw [h1]; rfl
  have hd : s.drop 5 = part ++ (gs.map (fun g => ':' :: g)).flatten ++ nl := by rw [h1]; rfl
  refine ⟨by rw [ht]; exact h2, (List.take_append_drop 5 s).symm, ?_, ?_⟩
  · intro c hc
    rw [hd] at hc
    rcases List.mem_append.1 hc with hc | hc
    · rcases List.mem_append.1 hc with hc | hc
      · rcases h3 with rfl | ⟨d, rfl, hd2⟩
        · cases hc
        · rw [List.mem_singleton.1 hc]
          exact (part_char_ne d hd2).2
      · obtain ⟨l, hl, hcl⟩ := List.mem_flatten.1 hc
        obtain ⟨g, hg, rfl⟩ := List.mem_map.1 hl
        rcases List.mem_cons.1 hcl with rfl | hcg
        · decide
        · exact (field_char_ne c (h5 g hg c hcg)).2
    · rcases h6 with rfl | rfl
      · cases hc
      · rw [List.mem_singleton.1 hc]
        decide
  · rw [hd, List.count_append, List.count_append, count_colon_groups gs h5]
    have hp : part.count ':' = 0 := by
      rcases h3 with rfl | ⟨d, rfl, hd2⟩
      · rfl
      · have := (part_char_ne d hd2).1
        simp [List.count_cons, this]
    have hn : nl.count ':' = 0 := by
      rcases h6 with rfl | rfl <;> decide
    omega

/-- The fields of an accepted string without `%` are the raw fields. -/
theorem cpe_name_fields_plain (s : CStr) (h : cpe_name_check s = true) (hp : '%' ∉ s) :
    cpe_name_fields s = cpe_split (s.drop 5) [':'] := by
  obtain ⟨_, hs, hnul, _⟩ := cpe_name_check_body s h
  obtain ⟨_, _, hint⟩ := cpe_split_props _ (s.drop 5) (Nat.le_refl _)
  unfold cpe_name_fields
  apply decode_fields_id
  intro f hf
  have hsub : ∀ c ∈ f, c ∈ s.drop 5 := fun c hc => by
    rw [← hint]; exact mem_intercalate [':'] c f hc _ hf
  exact ⟨fun hm => hp (List.mem_of_mem_drop (hsub '%' hm)), fun c hc => hnul c (hsub c hc)⟩

theorem cpe_name_new_of_check (s : CStr) (h : cpe_name_check s = true) :
    cpe_name_new (some s) =
      some (cpe_assign_values_loop (cpe_name_fields s) 0
        { cpe_name_zero with fields_ := some (cpe_name_fields s) }).2 := by
  simp [cpe_name_new, h, cpe_assign_values]

theorem cpe_assign_values_loop_invalid (f0 : CStr) (rest : List CStr) (c : cpe_name)
    (hh : ¬ caseless_eq f0 ['h']) (ho : ¬ caseless_eq f0 ['o']) (ha : ¬ caseless_eq f0 ['a']) :
    (cpe_assign_values_loop (f0 :: rest) 0 c).2 = c := by
  have e1 : ¬ strcasecmp f0 ['h'] = 0 := fun h => hh ((strcasecmp_eq_zero _ _).1 h)
  have e2 : ¬ strcasecmp f0 ['o'] = 0 := fun h => ho ((strcasecmp_eq_zero _ _).1 h)
  have e3 : ¬ strcasecmp f0 ['a'] = 0 := fun h => ha ((strcasecmp_eq_zero _ _).1 h)
  rw [cpe_assign_values_loop]
  by_cases hf : f0 = []
  · simp [field_out_eq, hf]
  · simp [field_out_eq, hf, e1, e2, e3]

theorem part_char_of_caseless : ∀ d : Char,
    (d.toLower = 'h'.toLower ∨ d.toLower = 'o'.toLower ∨ d.toLower = 'a'.toLower) →
    part_char d = true := by
  apply char_cases
  · intro n h1 h2
    interval_cases n <;> decide
  · intro n h1 h2
    interval_cases n <;> decide
  · intro d hl _ _ _ h
    rw [hl] at h
    rcases h with h | h | h <;> (rw [h]; decide)

theorem mem_of_getLast (l : List (List Char)) (a : List Char) (h : l.getLast? = some a) :
    a ∈ l := by
  rcases List.eq_nil_or_concat l with rfl | ⟨init, b, rfl⟩
  · cases h
  · rw [List.concat_eq_append] at h ⊢
    rw [List.getLast?_concat] at h
    cases h
    simp

theorem getLast_ne_of_not_mem (seg : List Char) (h : ':' ∉ seg) : seg.getLast? ≠ some ':' := by
  rcases List.eq_nil_or_concat seg with rfl | ⟨init, b, rfl⟩
  · simp
  · rw [List.concat_eq_append] at h ⊢
    rw [List.getLast?_concat]
    intro e
    cases e
    exact h (by simp)

theorem pad_fields (R : List CStr) (h : R.length ≤ 6) :
    [R.getD 0 [], R.getD 1 [], R.getD 2 [], R.getD 3 [], R.getD 4 [], R.getD 5 []] =
      R ++ List.replicate (6 - R.length) [] := by
  rcases R with _ | ⟨f1, _ | ⟨f2, _ | ⟨f3, _ | ⟨f4, _ | ⟨f5, _ | ⟨f6, _ | ⟨f7, r⟩⟩⟩⟩⟩⟩⟩
  · rfl
  · rfl
  · rfl
  · rfl
  · rfl
  · rfl
  · rfl
  · simp at h

/-- Rendering of a name whose part letter is `x` and whose attributes are read
from the fields `f0 :: R`. -/
theorem cpe_name_get_uri_closed (f0 : CStr) (R : List CStr) (x : Char) (P : cpe_part)
    (hR : R.length ≤ 6) (hcol : ∀ g ∈ R, ':' ∉ g) (hx : x ≠ ':')
    (hP : CPE_PART_CHAR P = some [x]) (fl : Option (List CStr)) (hfl : fl ≠ none) :
    cpe_name_get_uri (some
      { fields_ := fl, part := P,
        vendor := attr_at (f0 :: R) 1, product := attr_at (f0 :: R) 2,
        version := attr_at (f0 :: R) 3, update := attr_at (f0 :: R) 4,
        edition := attr_at (f0 :: R) 5, language := attr_at (f0 :: R) 6 }) =
    some (CPE_SCHEMA ++ x ::
      ((R.rdropWhile (fun seg => seg.isEmpty)).map (fun g => ':' :: g)).flatten) := by
  obtain ⟨fs, rfl⟩ : ∃ fs, fl = some fs := by
    cases fl with
    | none => exact absurd rfl hfl
    | some fs => exact ⟨fs, rfl⟩
  have hseg : uri_segments
      { fields_ := some fs, part := P,
        vendor := attr_at (f0 :: R) 1, product := attr_at (f0 :: R) 2,
        version := attr_at (f0 :: R) 3, update := attr_at (f0 :: R) 4,
        edition := attr_at (f0 :: R) 5, language := attr_at (f0 :: R) 6 } =
      [x] :: (R ++ List.replicate (6 - R.length) []) := by
    rw [← pad_fields R hR]
    simp only [uri_segments, as_str_attr_at, hP]
    rfl
  have htrim : ([x] :: (R ++ List.replicate (6 - R.length) [])).rdropWhile
      (fun seg => seg.isEmpty) = [x] :: R.rdropWhile (fun seg => seg.isEmpty) := by
    rw [rdropWhile_empty_cons [x] (by simp), rdropWhile_empty_replicate]
  rw [cpe_name_get_uri_eq _ fs rfl, uri_format_eq, hseg,
    rdropWhile_colon_segments CPE_SCHEMA (by decide), htrim, intercalate_groups]
  · rfl
  · intro seg hseg2
    rw [htrim] at hseg2
    apply getLast_ne_of_not_mem
    rcases List.mem_cons.1 (mem_of_getLast _ _ hseg2) with rfl | hm
    · simpa using hx.symm
    · exact hcol seg (rdropWhile_empty_mem R seg hm)

theorem part_letter_facts (x : Char) (P : cpe_part)
    (hx : (x = 'h' ∧ P = CPE_PART_HW) ∨ (x = 'o' ∧ P = CPE_PART_OS) ∨
      (x = 'a' ∧ P = CPE_PART_APP)) :
    part_char x = true ∧ x ≠ ':' ∧ x ≠ '%' ∧ x ≠ NUL ∧ CPE_PART_CHAR P = some [x] ∧
    (x.toLower = 'h'.toLower ∨ x.toLower = 'o'.toLower ∨ x.toLower = 'a'.toLower) := by
  rcases hx with ⟨rfl, rfl⟩ | ⟨rfl, rfl⟩ | ⟨rfl, rfl⟩ <;> decide

/-- C11, as stated, fails: the canonical empty Name has no field sequence
(`fields_` is `NULL`), and `cpe_name_get_uri` returns `NULL` for it, not the
string `cpe:/`. -/
theorem cpe_name_get_uri_empty_not_schema :
    cpe_name_new none = some cpe_name_zero ∧
    cpe_name_zero.fields_ = none ∧
    cpe_name_get_uri (cpe_name_new none) ≠ some CPE_SCHEMA := by
  refine ⟨rfl, rfl, by decide⟩

/-- C11, amended: the canonical empty Name built by `cpe_name_new` with no
input string (no field sequence, part unspecified, all attributes absent) is
rendered by `cpe_name_get_uri` as no string at all: the result is `NULL`, as
for every Name without a field sequence. -/
theorem cpe_name_get_uri_empty :
    cpe_name_new none =
      some { fields_ := none, part := CPE_PART_NONE, vendor := none, product := none,
             version := none, update := none, edition := none, language := none } ∧
    cpe_name_get_uri (cpe_name_new none) = none ∧
    (∀ n : cpe_name, n.fields_ = none → cpe_name_get_uri (some n) = none) := by
  refine ⟨rfl, by decide, fun n hn => ?_⟩
  simp [cpe_name_get_uri, hn]

/-- Witness of C11 (amended) at the zeroed structure. -/
theorem cpe_name_get_uri_empty_witness :
    cpe_name_zero.fields_ = none ∧ cpe_name_get_uri (some cpe_name_zero) = none :=
  ⟨rfl, cpe_name_get_uri_empty.2.2 cpe_name_zero rfl⟩

/-- C16 (evaluation): with the canonical empty Name as candidate and any
present pattern, `cpe_name_match_one` passes the length test (0 fields) and
then reads `cpe->fields_[0]` through the `NULL` field sequence; with an absent
argument it returns false. -/
theorem cpe_name_match_one_empty_candidate :
    cpe_name_match_one (cpe_name_new none) (cpe_name_new (some "cpe:/a".toList)) = none ∧
    cpe_name_match_one (cpe_name_new none) (cpe_name_new none) = none ∧
    (∀ p : cpe_name, cpe_name_match_one (cpe_name_new none) (some p) = none) ∧
    cpe_name_match_one (cpe_name_new (some "cpe:/a".toList)) (cpe_name_new none) = some false ∧
    (∀ q : Option cpe_name, cpe_name_match_one none q = some false) ∧
    (∀ q : Option cpe_name, cpe_name_match_one q none = some false) := by
  refine ⟨by decide, by decide, ?_, by decide, fun q => rfl, ?_⟩
  · intro p
    simp [cpe_name_new, cpe_name_match_one, cpe_name_zero, ptrarray_length]
  · intro q
    cases q <;> rfl

/-- C15 (evaluation at `cpe:/:acme:widget`): field 0 is empty, so
`cpe_assign_values` returns false before it assigns any attribute, and the
Name that `cpe_name_new` still returns has the fields `acme` and `widget` at
positions 1 and 2 but no vendor and no product. -/
theorem cpe_name_new_fields_without_attrs :
    cpe_name_new (some "cpe:/:acme:widget".toList) =
      some { fields_ := some [[], "acme".toList, "widget".toList], part := CPE_PART_NONE,
             vendor := none, product := none, version := none, update := none,
             edition := none, language := none } ∧
    attr_at [[], "acme".toList, "widget".toList] 1 = some "acme".toList ∧
    attr_of { fields_ := some [[], "acme".toList, "widget".toList], part := CPE_PART_NONE,
              vendor := none, product := none, version := none, update := none,
              edition := none, language := none } 1 = none := by
  refine ⟨by decide, by decide, rfl⟩

/-! ## Number of fields -/

theorem cpe_name_fields_length (s : CStr) :
    (cpe_name_fields s).length = (cpe_split (s.drop 5) [':']).length := by
  simp [cpe_name_fields]

theorem caseless_eq_refl (a : CStr) : caseless_eq a a := rfl

theorem caseless_eq_trans (a b c : CStr) (h1 : caseless_eq a b) (h2 : caseless_eq b c) :
    caseless_eq a c := Eq.trans h1 h2

theorem caseless_eq_nil (a b : CStr) (h : caseless_eq a b) (hb : b = []) : a = [] := by
  subst hb
  unfold caseless_eq at h
  simpa using h

/-- C18: on Names built by parsing a string, `cpe_name_match_one` is a
preorder: every such Name matches itself, and if `a` matches `b` and `b`
matches `c` then `a` matches `c`. -/
theorem cpe_name_match_one_preorder :
    (∀ (s : CStr) (n : cpe_name), cpe_name_new (some s) = some n →
      cpe_name_match_one (some n) (some n) = some true) ∧
    (∀ (s1 s2 s3 : CStr) (a b c : cpe_name), cpe_name_new (some s1) = some a →
      cpe_name_new (some s2) = some b → cpe_name_new (some s3) = some c →
      cpe_name_match_one (some a) (some b) = some true →
      cpe_name_match_one (some b) (some c) = some true →
      cpe_name_match_one (some a) (some c) = some true) := by
  constructor
  · intro s n h
    have hf := cpe_name_new_fields s n h
    rw [(cpe_name_match_one_of_fields n n _ _ hf hf).2]
    exact ⟨Nat.le_refl _, fun j _ => Or.inr (caseless_eq_refl _)⟩
  · intro s1 s2 s3 a b c ha hb hc hab hbc
    have hfa := cpe_name_new_fields s1 a ha
    have hfb := cpe_name_new_fields s2 b hb
    have hfc := cpe_name_new_fields s3 c hc
    rw [(cpe_name_match_one_of_fields a b _ _ hfa hfb).2] at hab
    rw [(cpe_name_match_one_of_fields b c _ _ hfb hfc).2] at hbc
    rw [(cpe_name_match_one_of_fields a c _ _ hfa hfc).2]
    refine ⟨Nat.le_trans hab.1 hbc.1, fun j hj => ?_⟩
    rcases hab.2 j hj with h0 | hja
    · exact Or.inl h0
    · rcases hbc.2 j (Nat.lt_of_lt_of_le hj hab.1) with hb0 | hjb
      · exact Or.inl (caseless_eq_nil _ _ hja hb0)
      · exact Or.inr (caseless_eq_trans _ _ _ hja hjb)

/-- Witness of C18: `cpe:/a::1.0` matches `cpe:/A:acme:1.0`, which matches
`cpe:/a:ACME:1.0:sp2`, hence the first matches the third. -/
theorem cpe_name_match_one_preorder_witness :
    cpe_name_match_one
      (some ⟨some ["a".toList, [], "1.0".toList], CPE_PART_APP, none, some "1.0".toList,
        none, none, none, none⟩)
      (some ⟨some ["a".toList, "ACME".toList, "1.0".toList, "sp2".toList], CPE_PART_APP,
        some "ACME".toList, some "1.0".toList, some "sp2".toList, none, none, none⟩)
      = some true :=
  cpe_name_match_one_preorder.2 "cpe:/a::1.0".toList "cpe:/A:acme:1.0".toList
    "cpe:/a:ACME:1.0:sp2".toList _
    ⟨some ["A".toList, "acme".toList, "1.0".toList], CPE_PART_APP,
      some "acme".toList, some "1.0".toList, none, none, none, none⟩ _
    (by decide) (by decide) (by decide) (by decide) (by decide)

/-! ## An empty last field against an absent one -/

theorem cpe_split_snoc (n : Nat) : ∀ b : CStr, b.length ≤ n →
    cpe_split (b ++ [':']) [':'] = cpe_split b [':'] ++ [[]] := by
  induction n with
  | zero =>
    intro b hb
    have : b = [] := List.length_eq_zero.1 (by omega)
    subst this
    decide
  | succ n ih =>
    intro b hb
    rcases strsep_cases [':'] b with ⟨h1, _⟩ | ⟨tok, d, r, h1, h2, h3, _⟩
    · rw [cpe_split_append [':'] b [] ':' h1 (by simp), cpe_split_no_delim [':'] b h1]
      rfl
    · have hd : d = ':' := by simpa using h3
      subst hd
      have hr : r.length ≤ n := by
        have : b.length = tok.length + (r.length + 1) := by simp [h1]
        omega
      have e : (tok ++ ':' :: r) ++ [':'] = tok ++ ':' :: (r ++ [':']) := by simp
      rw [h1, e, cpe_split_append [':'] tok _ ':' h2 h3, cpe_split_append [':'] tok r ':' h2 h3,
        ih r hr]
      rfl

theorem cpe_name_fields_snoc (s : CStr) (h : cpe_name_check s = true) :
    cpe_name_fields (s ++ [':']) = cpe_name_fields s ++ [[]] := by
  obtain ⟨hpre, hs, _, _⟩ := cpe_name_check_body s h
  have hlen : 5 ≤ s.length := by
    obtain ⟨d1, d2, d3, d4, d5, h5, -⟩ := (caseless_schema _).1 hpre
    have := congrArg List.length h5
    simp only [List.length_take, List.length_cons, List.length_nil] at this
    omega
  unfold cpe_name_fields
  simp only
  rw [List.drop_append_of_le_length hlen, cpe_split_snoc _ _ (Nat.le_refl _), List.map_append]
  rfl

theorem option_bool_eq (r1 r2 : Option Bool)
    (h1 : r1 = some true ∨ r1 = some false) (h2 : r2 = some true ∨ r2 = some false)
    (h : r1 = some true ↔ r2 = some true) : r1 = r2 := by
  rcases h1 with a | a <;> rcases h2 with b | b
  · rw [a, b]
  · rw [h, b] at a; cases a
  · rw [← h, a] at b; cases b
  · rw [a, b]

theorem getD_snoc_lt (fs : List CStr) (j : Nat) (hj : j < fs.length) :
    (fs ++ [[]]).getD j [] = fs.getD j [] := by
  simp only [List.getD_eq_getElem?_getD]
  rw [List.getElem?_append_left hj]

theorem getD_snoc_length (fs : List CStr) : (fs ++ [[]]).getD fs.length [] = [] := by
  simp [List.getD_eq_getElem?_getD]

/-- C12, as stated, fails: the Name parsed from `cpe:/a` matches the pattern
parsed from `cpe:/a`, but the Name parsed from `cpe:/a:` (an explicit empty
field 1) does not, because the pattern then has fewer fields than the
candidate; and with `cpe:/a:` as candidate, the pattern `cpe:/a` does not
match while the pattern `cpe:/a:` does. -/
theorem cpe_name_match_one_counts_fields :
    cpe_name_match_one (cpe_name_new (some "cpe:/a".toList))
      (cpe_name_new (some "cpe:/a".toList)) = some true ∧
    cpe_name_match_one (cpe_name_new (some "cpe:/a:".toList))
      (cpe_name_new (some "cpe:/a".toList)) = some false ∧
    cpe_name_match_one (cpe_name_new (some "cpe:/a:".toList))
      (cpe_name_new (some "cpe:/a".toList)) ≠
        cpe_name_match_one (cpe_name_new (some "cpe:/a".toList))
          (cpe_name_new (some "cpe:/a".toList)) ∧
    cpe_name_match_one (cpe_name_new (some "cpe:/a:".toList))
      (cpe_name_new (some "cpe:/a:".toList)) ≠
        cpe_name_match_one (cpe_name_new (some "cpe:/a:".toList))
          (cpe_name_new (some "cpe:/a".toList)) := by
  refine ⟨by decide, by decide, by decide, by decide⟩

/-- C12, amended: matching distinguishes an explicit empty last field from an
absent one only through the field count.  For every URI string `s` such that
`s` and `s` followed by `:` both parse, to `n` and `n2`, and every Name `q`:
with `n2` in place of `n` as candidate against `q` the result is the same
unless `q` has exactly as many fields as `n`, in which case `n2` does not
match; and with `q` as candidate against `n2` in place of `n` the result is
the same unless `q` has exactly one field more than `n`. -/
theorem cpe_name_match_one_extra_field (s : CStr) (n n2 q : cpe_name)
    (h1 : cpe_name_new (some s) = some n) (h2 : cpe_name_new (some (s ++ [':'])) = some n2) :
    (ptrarray_length q.fields_ ≠ ptrarray_length n.fields_ →
      cpe_name_match_one (some n2) (some q) = cpe_name_match_one (some n) (some q)) ∧
    (ptrarray_length q.fields_ = ptrarray_length n.fields_ →
      cpe_name_match_one (some n2) (some q) = some false) ∧
    (ptrarray_length q.fields_ ≠ ptrarray_length n.fields_ + 1 →
      cpe_name_match_one (some q) (some n2) = cpe_name_match_one (some q) (some n)) := by
  obtain ⟨hk, _⟩ := cpe_name_new_some s n h1
  have hf := cpe_name_new_fields s n h1
  have hf2 := cpe_name_new_fields _ n2 h2
  rw [cpe_name_fields_snoc s hk] at hf2
  generalize cpe_name_fields s = fs at hf hf2
  cases hq : q.fields_ with
  | none =>
    refine ⟨fun hne => ?_, fun hl => ?_, fun _ => ?_⟩
    · have hpos : 0 < fs.length := by
        simp only [hf, ptrarray_length] at hne
        omega
      simp [cpe_name_match_one, hq, hf, hf2, ptrarray_length, hpos]
    · simp [cpe_name_match_one, hq, hf, hf2, ptrarray_length]
    · simp [cpe_name_match_one, hq, hf, hf2, ptrarray_length]
  | some qf =>
    obtain ⟨a1, a2⟩ := cpe_name_match_one_of_fields n2 q _ _ hf2 hq
    obtain ⟨b1, b2⟩ := cpe_name_match_one_of_fields n q _ _ hf hq
    obtain ⟨c1, c2⟩ := cpe_name_match_one_of_fields q n2 _ _ hq hf2
    obtain ⟨d1, d2⟩ := cpe_name_match_one_of_fields q n _ _ hq hf
    simp only [hf, ptrarray_length, List.length_append, List.length_singleton] at *
    refine ⟨fun hne => ?_, fun heq => ?_, fun hne => ?_⟩
    · apply option_bool_eq _ _ a1 b1
      rw [a2, b2]
      constructor
      · rintro ⟨hl, hall⟩
        refine ⟨by omega, fun j hj => ?_⟩
        have := hall j (by omega)
        rwa [getD_snoc_lt fs j hj] at this
      · rintro ⟨hl, hall⟩
        refine ⟨by omega, fun j hj => ?_⟩
        by_cases hjl : j < fs.length
        · rw [getD_snoc_lt fs j hjl]
          exact hall j hjl
        · have : j = fs.length := by omega
          subst this
          exact Or.inl (getD_snoc_length fs)
    · rcases a1 with a | a
      · rw [a2] at a
        omega
      · exact a
    · apply option_bool_eq _ _ c1 d1
      rw [c2, d2]
      constructor
      · rintro ⟨hl, hall⟩
        refine ⟨by omega, fun j hj => ?_⟩
        have := hall j hj
        rwa [getD_snoc_lt fs j (by omega)] at this
      · rintro ⟨hl, hall⟩
        refine ⟨by omega, fun j hj => ?_⟩
        rw [getD_snoc_lt fs j (by omega)]
        exact hall j hj

/-- Witness of C12 (amended) at `cpe:/a:acme` against the Name parsed from
`cpe:/a:acme:widget`, which has one field more. -/
theorem cpe_name_match_one_extra_field_witness :
    cpe_name_new (some "cpe:/a:acme".toList) =
      some ⟨some ["a".toList, "acme".toList], CPE_PART_APP, some "acme".toList,
        none, none, none, none, none⟩ ∧
    cpe_name_new (some ("cpe:/a:acme".toList ++ [':'])) =
      some ⟨some ["a".toList, "acme".toList, []], CPE_PART_APP, some "acme".toList,
        none, none, none, none, none⟩ ∧
    cpe_name_match_one
      (some ⟨some ["a".toList, "acme".toList, []], CPE_PART_APP, some "acme".toList,
        none, none, none, none, none⟩)
      (some ⟨some ["a".toList, "acme".toList, "widget".toList], CPE_PART_APP,
        some "acme".toList, some "widget".toList, none, none, none, none⟩) =
    cpe_name_match_one
      (some ⟨some ["a".toList, "acme".toList], CPE_PART_APP, some "acme".toList,
        none, none, none, none, none⟩)
      (some ⟨some ["a".toList, "acme".toList, "widget".toList], CPE_PART_APP,
        some "acme".toList, some "widget".toList, none, none, none, none⟩) :=
  ⟨by decide, by decide,
    (cpe_name_match_one_extra_field "cpe:/a:acme".toList _ _
      ⟨some ["a".toList, "acme".toList, "widget".toList], CPE_PART_APP,
        some "acme".toList, some "widget".toList, none, none, none, none⟩
      (by decide) (by decide)).1 (by decide)⟩

/-! ## Matching against a collection of names -/

theorem cpe_name_match_cpes_loop_true (name : Option cpe_name)
    (l : List (Option cpe_name)) :
    ∀ k i : Nat, cpe_name_match_cpes_loop name l k i = some true →
      ∃ p ∈ l, cpe_name_match_one name p = some true := by
  intro k
  induction k with
  | zero => intro i h; simp [cpe_name_match_cpes_loop] at h
  | succ k ih =>
    intro i h
    rw [cpe_name_match_cpes_loop] at h
    cases hg : l[i]? with
    | none => rw [hg] at h; cases h
    | some p =>
      rw [hg] at h
      simp only at h
      cases hm : cpe_name_match_one name p with
      | none => rw [hm] at h; cases h
      | some b =>
        rw [hm] at h
        cases b with
        | true => exact ⟨p, List.getElem?_mem hg, hm⟩
        | false => exact ih (i + 1) h

theorem cpe_name_match_cpes_loop_total (name : Option cpe_name)
    (l : List (Option cpe_name))
    (htot : ∀ p, cpe_name_match_one name p = some true ∨ cpe_name_match_one name p = some false) :
    ∀ k i : Nat, i + k ≤ l.length →
      (cpe_name_match_cpes_loop name l k i = some true ∨
        cpe_name_match_cpes_loop name l k i = some false) ∧
      ((∃ j, i ≤ j ∧ j < i + k ∧ ∃ p, l[j]? = some p ∧ cpe_name_match_one name p = some true) →
        cpe_name_match_cpes_loop name l k i = some true) := by
  intro k
  induction k with
  | zero =>
    intro i _
    exact ⟨Or.inr rfl, fun ⟨j, h1, h2, _⟩ => by omega⟩
  | succ k ih =>
    intro i hi
    have hlt : i < l.length := by omega
    have hget : l[i]? = some l[i] := List.getElem?_eq_getElem hlt
    obtain ⟨ih1, ih2⟩ := ih (i + 1) (by omega)
    rw [cpe_name_match_cpes_loop]
    simp only [hget]
    rcases htot l[i] with hm | hm
    · rw [hm]
      exact ⟨Or.inl rfl, fun _ => rfl⟩
    · rw [hm]
      refine ⟨ih1, fun ⟨j, h1, h2, p, hp, hpm⟩ => ?_⟩
      apply ih2
      have hji : j ≠ i := by
        rintro rfl
        rw [hget] at hp
        cases hp
        rw [hm] at hpm
        cases hpm
      exact ⟨j, by omega, by omega, p, hp, hpm⟩

theorem cpe_name_match_one_total (c : cpe_name) (cf : List CStr) (hc : c.fields_ = some cf)
    (p : Option cpe_name) :
    cpe_name_match_one (some c) p = some true ∨ cpe_name_match_one (some c) p = some false := by
  cases p with
  | none => right; rfl
  | some a =>
    cases ha : a.fields_ with
    | some af => exact (cpe_name_match_one_of_fields c a cf af hc ha).1
    | none =>
      cases cf with
      | nil => left; simp [cpe_name_match_one, hc, ha, ptrarray_length, cpe_name_match_one_loop]
      | cons f r => right; simp [cpe_name_match_one, hc, ha, ptrarray_length]

theorem cpe_name_match_one_no_fields (c : cpe_name) (hc : c.fields_ = none)
    (p : Option cpe_name) : cpe_name_match_one (some c) p ≠ some true := by
  cases p with
  | none => simp [cpe_name_match_one]
  | some a => simp [cpe_name_match_one, hc, ptrarray_length]

/-- C13, as stated, fails.  For a collection of 2^31 patterns the count is
converted to `int` and becomes negative, the loop does not run, and the result
is false although the candidate matches pattern 0.  And for the canonical
empty Name as candidate against a present pattern the result is no boolean at
all: `cpe_name_match_one` reads through the `NULL` field sequence. -/
theorem cpe_name_match_cpes_not_any :
    (cpe_name_match_one
        (some ⟨some ["a".toList], CPE_PART_APP, none, none, none, none, none, none⟩)
        (some ⟨some ["a".toList], CPE_PART_APP, none, none, none, none, none, none⟩)
        = some true ∧
      (List.replicate (2 ^ 31)
        (some (⟨some ["a".toList], CPE_PART_APP, none, none, none, none, none, none⟩ :
          cpe_name)))[0]? =
        some (some ⟨some ["a".toList], CPE_PART_APP, none, none, none, none, none, none⟩) ∧
      cpe_name_match_cpes
        (some ⟨some ["a".toList], CPE_PART_APP, none, none, none, none, none, none⟩)
        (List.replicate (2 ^ 31)
          (some (⟨some ["a".toList], CPE_PART_APP, none, none, none, none, none, none⟩ :
            cpe_name))).length
        (some (List.replicate (2 ^ 31)
          (some (⟨some ["a".toList], CPE_PART_APP, none, none, none, none, none, none⟩ :
            cpe_name)))) = some false) ∧
    (cpe_name_new none = some cpe_name_zero ∧
      cpe_name_match_cpes (cpe_name_new none) 1
        (some [cpe_name_new (some "cpe:/a".toList)]) = none) := by
  refine ⟨⟨by decide, ?_, ?_⟩, rfl, by decide⟩
  · rw [List.getElem?_replicate, if_pos (by norm_num)]
  · rw [List.length_replicate]
    unfold cpe_name_match_cpes
    simp only
    rw [int_of_size_t_wrap]
    rfl

/-- C13, amended: for every candidate that is absent or has a field sequence
(as every Name built by parsing has) and every collection of fewer than 2^31
pattern Names, `cpe_name_match_cpes` returns a boolean, and it returns true if
and only if `cpe_name_match_one` of the candidate against at least one of the
patterns is true; it returns false when the candidate is absent, when the
collection is absent and when `n` is 0. -/
theorem cpe_name_match_cpes_any :
    (∀ (name : Option cpe_name) (l : List (Option cpe_name)), l.length < 2 ^ 31 →
      (name = none ∨ ∃ c fs, name = some c ∧ c.fields_ = some fs) →
      ∃ b : Bool, cpe_name_match_cpes name l.length (some l) = some b ∧
        (b = true ↔ ∃ p ∈ l, cpe_name_match_one name p = some true)) ∧
    (∀ (n : Nat) (l : Option (List (Option cpe_name))),
      cpe_name_match_cpes none n l = some false) ∧
    (∀ (name : Option cpe_name) (n : Nat), cpe_name_match_cpes name n none = some false) ∧
    (∀ (name : Option cpe_name) (l : List (Option cpe_name)),
      cpe_name_match_cpes name 0 (some l) = some false) := by
  refine ⟨?_, fun n l => rfl, fun name n => by cases name <;> rfl,
    fun name l => by cases name <;> rfl⟩
  intro name l hl hname
  have hcount := int_of_size_t_small l.length hl
  rcases hname with rfl | ⟨c, cf, rfl, hc⟩
  · refine ⟨false, rfl, ?_⟩
    constructor
    · intro h
      cases h
    · rintro ⟨p, _, hp⟩
      simp [cpe_name_match_one] at hp
  · have hres : cpe_name_match_cpes (some c) l.length (some l) =
        cpe_name_match_cpes_loop (some c) l l.length 0 := by
      simp [cpe_name_match_cpes, hcount]
    rw [hres]
    obtain ⟨t1, t2⟩ := cpe_name_match_cpes_loop_total (some c) l
      (cpe_name_match_one_total c cf hc) l.length 0 (by omega)
    have hiff : cpe_name_match_cpes_loop (some c) l l.length 0 = some true ↔
        ∃ p ∈ l, cpe_name_match_one (some c) p = some true := by
      refine ⟨fun h => cpe_name_match_cpes_loop_true _ l _ _ h, fun ⟨p, hp, hpm⟩ => ?_⟩
      obtain ⟨j, hj, hjp⟩ := List.getElem_of_mem hp
      exact t2 ⟨j, by omega, by omega, p, by rw [List.getElem?_eq_getElem hj, hjp], hpm⟩
    rcases t1 with h | h
    · exact ⟨true, h, ⟨fun _ => hiff.1 h, fun _ => rfl⟩⟩
    · refine ⟨false, h, ⟨fun e => (by cases e), fun hex => ?_⟩⟩
      rw [hiff.2 hex] at h
      cases h

/-- Witness of C13 (amended): a parsed candidate against two patterns, the
first of which is absent. -/
theorem cpe_name_match_cpes_any_witness :
    ([none, some ⟨some ["a".toList, "acme".toList, "widget".toList], CPE_PART_APP,
        some "acme".toList, some "widget".toList, none, none, none, none⟩] :
      List (Option cpe_name)).length < 2 ^ 31 ∧
    ∃ b : Bool,
      cpe_name_match_cpes
        (some ⟨some ["a".toList, "acme".toList], CPE_PART_APP, some "acme".toList,
          none, none, none, none, none⟩) 2
        (some [none, some ⟨some ["a".toList, "acme".toList, "widget".toList], CPE_PART_APP,
          some "acme".toList, some "widget".toList, none, none, none, none⟩]) = some b ∧
      (b = true ↔
        ∃ p ∈ ([none, some ⟨some ["a".toList, "acme".toList, "widget".toList], CPE_PART_APP,
            some "acme".toList, some "widget".toList, none, none, none, none⟩] :
          List (Option cpe_name)),
          cpe_name_match_one
            (some ⟨some ["a".toList, "acme".toList], CPE_PART_APP, some "acme".toList,
              none, none, none, none, none⟩) p = some true) :=
  ⟨by decide,
    cpe_name_match_cpes_any.1
      (some ⟨some ["a".toList, "acme".toList], CPE_PART_APP, some "acme".toList,
        none, none, none, none, none⟩)
      [none, some ⟨some ["a".toList, "acme".toList, "widget".toList], CPE_PART_APP,
        some "acme".toList, some "widget".toList, none, none, none, none⟩]
      (by decide) (Or.inr ⟨_, _, rfl, rfl⟩)⟩

/-! ## Failure of the percent decoding -/

theorem cpe_urldecode_loop_toks_append (toks : List EscTok) (h : ∀ t ∈ toks, t.ok)
    (rest : List Char) :
    ∀ out : List Char,
      cpe_urldecode_loop (toks.flatMap EscTok.text ++ rest) out =
        cpe_urldecode_loop rest (out ++ toks.map EscTok.byte) := by
  induction toks with
  | nil => intro out; simp
  | cons t ts ih =>
    intro out
    have ht := h t (List.mem_cons_self _ _)
    have ih2 := ih (fun x hx => h x (List.mem_cons_of_mem _ hx))
    cases t with
    | plain c =>
      have hc : c ≠ '%' := ht
      simp only [List.flatMap_cons, EscTok.text, List.cons_append, List.nil_append,
        List.map_cons, EscTok.byte]
      rw [cpe_urldecode_loop_plain _ _ _ hc, ih2]
      simp
    | esc x y =>
      obtain ⟨hx, hy⟩ : isxdigit x = true ∧ isxdigit y = true := ht
      simp only [List.flatMap_cons, EscTok.text, List.cons_append, List.nil_append,
        List.map_cons, EscTok.byte]
      rw [cpe_urldecode_loop_esc x y _ out hx hy, ih2]
      simp

theorem cpe_urldecode_loop_bad (rest out : List Char) (h : hex_pair_follows rest = false) :
    cpe_urldecode_loop ('%' :: rest) out = (false, out) := by
  rcases rest with _ | ⟨x, _ | ⟨y, r⟩⟩
  · simp [cpe_urldecode_loop]
  · simp [cpe_urldecode_loop]
  · have h2 : (isxdigit x && isxdigit y) = false := h
    simp [cpe_urldecode_loop, h2]

theorem cpe_urldecode_loop_fail (n : Nat) : ∀ s : List Char, s.length ≤ n →
    ∀ out : List Char, (cpe_urldecode_loop s out).1 = false →
      ∃ (toks : List EscTok) (rest : List Char), (∀ t ∈ toks, t.ok) ∧
        s = toks.flatMap EscTok.text ++ '%' :: rest ∧ hex_pair_follows rest = false := by
  induction n with
  | zero =>
    intro s hs out h
    have : s = [] := List.length_eq_zero.1 (by omega)
    subst this
    simp [cpe_urldecode_loop] at h
  | succ n ih =>
    intro s hs out h
    match s, hs, h with
    | [], _, h => simp [cpe_urldecode_loop] at h
    | c :: rest, hs, h =>
      by_cases hc : c = '%'
      · subst hc
        by_cases hp : hex_pair_follows rest = true
        · match rest, hs, h, hp with
          | [], _, _, hp => simp [hex_pair_follows] at hp
          | [x], _, _, hp => simp [hex_pair_follows] at hp
          | x :: y :: r, hs, h, hp =>
            have hxy : isxdigit x = true ∧ isxdigit y = true := by
              simpa [hex_pair_follows] using hp
            rw [cpe_urldecode_loop_esc x y r out hxy.1 hxy.2] at h
            obtain ⟨toks, rest2, h1, h2, h3⟩ := ih r (by simp at hs; omega) _ h
            refine ⟨EscTok.esc x y :: toks, rest2, ?_, by simp [EscTok.text, h2], h3⟩
            intro t ht
            rcases List.mem_cons.1 ht with rfl | ht
            · exact hxy
            · exact h1 t ht
        · exact ⟨[], rest, by simp, by simp, by simpa using hp⟩
      · rw [cpe_urldecode_loop_plain c rest out hc] at h
        obtain ⟨toks, rest2, h1, h2, h3⟩ := ih rest (by simp at hs; omega) _ h
        refine ⟨EscTok.plain c :: toks, rest2, ?_, by simp [EscTok.text, h2], h3⟩
        intro t ht
        rcases List.mem_cons.1 ht with rfl | ht
        · exact hc
        · exact h1 t ht

theorem cpe_urldecode_loop_ok (n : Nat) : ∀ t : List Char, t.length ≤ n →
    ∀ out : List Char, (cpe_urldecode_loop t out).1 = true → well_escaped t = true := by
  induction n with
  | zero =>
    intro t ht out _
    have : t = [] := List.length_eq_zero.1 (by omega)
    subst this
    rfl
  | succ n ih =>
    intro t ht out hl
    match t, ht, hl with
    | [], _, _ => rfl
    | c :: r, ht, hl =>
      by_cases hc : c = '%'
      · subst hc
        by_cases hp : hex_pair_follows r = true
        · match r, ht, hl, hp with
          | [], _, _, hp => simp [hex_pair_follows] at hp
          | [x], _, _, hp => simp [hex_pair_follows] at hp
          | x :: y :: r2, ht, hl, hp =>
            have hxy : isxdigit x = true ∧ isxdigit y = true := by
              simpa [hex_pair_follows] using hp
            rw [cpe_urldecode_loop_esc x y r2 out hxy.1 hxy.2] at hl
            rw [well_escaped_esc, hxy.1, hxy.2, ih r2 (by simp at ht; omega) _ hl]
            rfl
        · rw [cpe_urldecode_loop_bad r out (by simpa using hp)] at hl
          cases hl
      · rw [cpe_urldecode_loop_plain c r out hc] at hl
        rw [well_escaped_plain c r hc]
        exact ih r (by simp at ht; omega) _ hl

theorem well_escaped_toks_bad (toks : List EscTok) (h : ∀ t ∈ toks, t.ok) (rest : List Char)
    (hb : hex_pair_follows rest = false) :
    well_escaped (toks.flatMap EscTok.text ++ '%' :: rest) = false := by
  induction toks with
  | nil =>
    rcases rest with _ | ⟨x, _ | ⟨y, r⟩⟩
    · decide
    · simp [well_escaped_short]
    · have h2 : (isxdigit x && isxdigit y) = false := hb
      simp [well_escaped_esc, h2]
  | cons t ts ih =>
    have ht := h t (List.mem_cons_self _ _)
    have ih2 := ih (fun x hx => h x (List.mem_cons_of_mem _ hx))
    cases t with
    | plain c =>
      have hc : c ≠ '%' := ht
      simp only [List.flatMap_cons, EscTok.text, List.cons_append, List.nil_append]
      rw [well_escaped_plain _ _ hc]
      exact ih2
    | esc x y =>
      simp only [List.flatMap_cons, EscTok.text, List.cons_append, List.nil_append]
      rw [well_escaped_esc, ih2]
      simp

/-- C17: for every field string, `cpe_urldecode` returns failure if and only
if its left-to-right scan reaches a `%` that is not followed by two
hexadecimal digits, that is, the field is a sequence of plain characters and
well-formed escapes followed by such a `%`; it then stops there and leaves in
the field the decoding of the part that precedes that `%`, and nothing of what
follows. -/
theorem cpe_urldecode_failure (s : CStr) :
    ((cpe_urldecode s).1 = false ↔
      ∃ (toks : List EscTok) (rest : List Char), (∀ t ∈ toks, t.ok) ∧
        s = toks.flatMap EscTok.text ++ '%' :: rest ∧ hex_pair_follows rest = false) ∧
    ((cpe_urldecode s).1 = false ↔ well_escaped s = false) ∧
    (∀ (toks : List EscTok) (rest : List Char), (∀ t ∈ toks, t.ok) →
      s = toks.flatMap EscTok.text ++ '%' :: rest → hex_pair_follows rest = false →
      cpe_urldecode s = (false, toks.map EscTok.byte) ∧
      cpe_urldecode (toks.flatMap EscTok.text) = (true, toks.map EscTok.byte)) := by
  have hdec : ∀ (toks : List EscTok) (rest : List Char), (∀ t ∈ toks, t.ok) →
      s = toks.flatMap EscTok.text ++ '%' :: rest → hex_pair_follows rest = false →
      cpe_urldecode s = (false, toks.map EscTok.byte) ∧
      cpe_urldecode (toks.flatMap EscTok.text) = (true, toks.map EscTok.byte) := by
    intro toks rest hok hs hb
    constructor
    · rw [hs]
      unfold cpe_urldecode
      rw [cpe_urldecode_loop_toks_append toks hok, cpe_urldecode_loop_bad _ _ hb]
      simp
    · simpa [cpe_urldecode] using cpe_urldecode_loop_toks toks hok []
  have hiff : (cpe_urldecode s).1 = false ↔
      ∃ (toks : List EscTok) (rest : List Char), (∀ t ∈ toks, t.ok) ∧
        s = toks.flatMap EscTok.text ++ '%' :: rest ∧ hex_pair_follows rest = false := by
    constructor
    · intro h
      exact cpe_urldecode_loop_fail s.length s (Nat.le_refl _) [] h
    · rintro ⟨toks, rest, hok, hs, hb⟩
      rw [(hdec toks rest hok hs hb).1]
  refine ⟨hiff, ?_, hdec⟩
  constructor
  · intro h
    obtain ⟨toks, rest, hok, hs, hb⟩ := hiff.1 h
    rw [hs]
    exact well_escaped_toks_bad toks hok rest hb
  · intro h
    cases hd : (cpe_urldecode s).1 with
    | false => rfl
    | true =>
      rw [cpe_urldecode_loop_ok s.length s (Nat.le_refl _) [] hd] at h
      cases h

/-- Witness of C17 at the field `a%41b%4`: the scan decodes `a%41b` to `aAb`
and fails at the second `%`. -/
theorem cpe_urldecode_failure_witness :
    cpe_urldecode "a%41b%4".toList = (false, "aAb".toList) ∧
    cpe_urldecode "a%41b".toList = (true, "aAb".toList) :=
  (cpe_urldecode_failure "a%41b%4".toList).2.2
    [EscTok.plain 'a', EscTok.esc '4' '1', EscTok.plain 'b'] ['4']
    (by
      intro t ht
      simp only [List.mem_cons, List.mem_singleton, List.not_mem_nil, or_false] at ht
      rcases ht with rfl | rfl | rfl
      · show ('a' : Char) ≠ '%'
        decide
      · exact ⟨by decide, by decide⟩
      · show ('b' : Char) ≠ '%'
        decide)
    (by decide) (by decide)

/-! ## A decoded NUL at the start of a field -/

theorem cpe_urldecode_loop_out (n : Nat) : ∀ inp : List Char, inp.length ≤ n →
    ∀ out : List Char,
      (cpe_urldecode_loop inp out).2 = out ++ (cpe_urldecode_loop inp []).2 := by
  induction n with
  | zero =>
    intro inp hi out
    have : inp = [] := List.length_eq_zero.1 (by omega)
    subst this
    simp [cpe_urldecode_loop]
  | succ n ih =>
    intro inp hi out
    match inp, hi with
    | [], _ => simp [cpe_urldecode_loop]
    | c :: r, hi =>
      by_cases hc : c = '%'
      · subst hc
        by_cases hp : hex_pair_follows r = true
        · match r, hi, hp with
          | [], _, hp => simp [hex_pair_follows] at hp
          | [x], _, hp => simp [hex_pair_follows] at hp
          | x :: y :: r2, hi, hp =>
            have hxy : isxdigit x = true ∧ isxdigit y = true := by
              simpa [hex_pair_follows] using hp
            rw [cpe_urldecode_loop_esc x y r2 out hxy.1 hxy.2,
              cpe_urldecode_loop_esc x y r2 [] hxy.1 hxy.2,
              ih r2 (by simp at hi; omega) (out ++ _), ih r2 (by simp at hi; omega) ([] ++ _)]
            simp
        · rw [cpe_urldecode_loop_bad r out (by simpa using hp),
            cpe_urldecode_loop_bad r [] (by simpa using hp)]
          simp
      · rw [cpe_urldecode_loop_plain c r out hc, cpe_urldecode_loop_plain c r [] hc,
          ih r (by simp at hi; omega) (out ++ [c]), ih r (by simp at hi; omega) ([] ++ [c])]
        simp

theorem decode_nul_escape (rest : List Char) :
    cstr (cpe_urldecode ('%' :: '0' :: '0' :: rest)).2 = [] := by
  unfold cpe_urldecode
  rw [cpe_urldecode_loop_esc '0' '0' rest [] (by decide) (by decide),
    cpe_urldecode_loop_out rest.length rest (Nat.le_refl _)]
  have e : Char.ofNat (16 * hexval '0' + hexval '0') = NUL := by decide
  rw [e]
  simp [cstr]

/-- Every attribute of a parsed name is absent or is the positional reading
of its field. -/
theorem cpe_name_new_attr_of (s : CStr) (n : cpe_name) (h : cpe_name_new (some s) = some n)
    (k : Nat) : attr_of n k = none ∨ attr_of n k = attr_at (cpe_name_fields s) k := by
  obtain ⟨_, hn⟩ := cpe_name_new_some s n h
  cases hfs : cpe_name_fields s with
  | nil =>
    rw [hfs] at hn
    rw [hn]
    left
    rcases k with _ | _ | _ | _ | _ | _ | _ | k <;> rfl
  | cons f0 R =>
    by_cases hv : caseless_eq f0 ['h'] ∨ caseless_eq f0 ['o'] ∨ caseless_eq f0 ['a']
    · obtain ⟨x, P, hx, hf0⟩ : ∃ (x : Char) (P : cpe_part),
          ((x = 'h' ∧ P = CPE_PART_HW) ∨ (x = 'o' ∧ P = CPE_PART_OS) ∨
            (x = 'a' ∧ P = CPE_PART_APP)) ∧ caseless_eq f0 [x] := by
        rcases hv with hv | hv | hv
        · exact ⟨'h', CPE_PART_HW, Or.inl ⟨rfl, rfl⟩, hv⟩
        · exact ⟨'o', CPE_PART_OS, Or.inr (Or.inl ⟨rfl, rfl⟩), hv⟩
        · exact ⟨'a', CPE_PART_APP, Or.inr (Or.inr ⟨rfl, rfl⟩), hv⟩
      have hclosed := cpe_name_new_attrs s n h x P (by rw [hfs]; simpa using hf0) hx
      rw [hfs] at hclosed
      rw [hclosed]
      rcases k with _ | _ | _ | _ | _ | _ | _ | k
      · left; rfl
      · right; rfl
      · right; rfl
      · right; rfl
      · right; rfl
      · right; rfl
      · right; rfl
      · left; rfl
    · rw [hfs] at hn
      have hinv := cpe_assign_values_loop_invalid f0 R
        { cpe_name_zero with fields_ := some (f0 :: R) }
        (fun e => hv (Or.inl e)) (fun e => hv (Or.inr (Or.inl e)))
        (fun e => hv (Or.inr (Or.inr e)))
      rw [hinv] at hn
      rw [hn]
      left
      rcases k with _ | _ | _ | _ | _ | _ | _ | k <;> rfl

/-- C19: under C string semantics an escape `%00` at the start of a field
erases it: for every accepted URI whose raw field `k` (1 to 6) begins with
`%00`, the Name built by `cpe_name_new` has field `k` empty and the k-th
attribute absent, whatever follows the escape, and as a candidate in
`cpe_name_match_one` position `k` puts no condition on the pattern. -/
theorem cpe_name_new_nul_escape (s : CStr) (n : cpe_name) (k : Nat) (rest : List Char)
    (h : cpe_name_new (some s) = some n) (hk1 : 1 ≤ k) (hk6 : k ≤ 6)
    (hraw : (cpe_split (s.drop 5) [':'])[k]? = some ('%' :: '0' :: '0' :: rest)) :
    attr_of n k = none ∧
    ∃ fs : List CStr, n.fields_ = some fs ∧ fs[k]? = some [] ∧
      ∀ (t : CStr) (p : cpe_name) (pf : List CStr), cpe_name_new (some t) = some p →
        p.fields_ = some pf →
        (cpe_name_match_one (some n) (some p) = some true ↔
          fs.length ≤ pf.length ∧
          ∀ j, j < fs.length → j ≠ k →
            fs.getD j [] = [] ∨ caseless_eq (fs.getD j []) (pf.getD j [])) := by
  have hfk : (cpe_name_fields s)[k]? = some [] := by
    unfold cpe_name_fields
    simp only [List.getElem?_map, hraw, Option.map_some']
    rw [decode_nul_escape]
  have hf := cpe_name_new_fields s n h
  constructor
  · rcases cpe_name_new_attr_of s n h k with h0 | h1
    · exact h0
    · rw [h1]
      simp [attr_at, hfk]
  · refine ⟨_, hf, hfk, ?_⟩
    intro t p pf _ hpf
    rw [(cpe_name_match_one_of_fields n p _ pf hf hpf).2]
    have hgk : (cpe_name_fields s).getD k [] = [] := by
      simp [List.getD_eq_getElem?_getD, hfk]
    constructor
    · rintro ⟨hl, hall⟩
      exact ⟨hl, fun j hj _ => hall j hj⟩
    · rintro ⟨hl, hall⟩
      refine ⟨hl, fun j hj => ?_⟩
      by_cases hjk : j = k
      · subst hjk
        exact Or.inl hgk
      · exact hall j hj hjk

/-- Witness of C19 at `cpe:/a:%00acme:widget`: field 1 is erased and the
vendor is absent. -/
theorem cpe_name_new_nul_escape_witness :
    cpe_name_new (some "cpe:/a:%00acme:widget".toList) =
      some ⟨some ["a".toList, [], "widget".toList], CPE_PART_APP, none,
        some "widget".toList, none, none, none, none⟩ ∧
    attr_of ⟨some ["a".toList, [], "widget".toList], CPE_PART_APP, none,
        some "widget".toList, none, none, none, none⟩ 1 = none :=
  ⟨by decide,
    (cpe_name_new_nul_escape "cpe:/a:%00acme:widget".toList _ 1 "acme".toList
      (by decide) (by decide) (by decide) (by decide)).1⟩

/-! ## Size of the buffer of `cpe_name_get_uri` -/

theorem uri_format_length (n : cpe_name) :
    (uri_format n).length =
      5 + (as_str (CPE_PART_CHAR n.part)).length + 6 +
        ((as_str n.vendor).length + (as_str n.product).length + (as_str n.version).length +
          (as_str n.update).length + (as_str n.edition).length +
          (as_str n.language).length) := by
  simp only [uri_format, CPE_SCHEMA, List.length_append, List.length_cons, List.length_nil]
  omega

theorem part_char_length (P : cpe_part) : (as_str (CPE_PART_CHAR P)).length ≤ 1 := by
  cases P <;> decide

theorem sum_fields_ge (fs : List CStr) :
    (fs.getD 1 []).length + (fs.getD 2 []).length + (fs.getD 3 []).length +
      (fs.getD 4 []).length + (fs.getD 5 []).length + (fs.getD 6 []).length ≤
      ((fs.take CPE_FIELDNUM).map List.length).sum := by
  unfold CPE_FIELDNUM
  rcases fs with _ | ⟨f0, _ | ⟨f1, _ | ⟨f2, _ | ⟨f3, _ | ⟨f4, _ | ⟨f5, _ | ⟨f6, r⟩⟩⟩⟩⟩⟩⟩ <;>
    simp <;> omega

theorem attr_length_le (s : CStr) (n : cpe_name) (h : cpe_name_new (some s) = some n)
    (k : Nat) : (as_str (attr_of n k)).length ≤ ((cpe_name_fields s).getD k []).length := by
  rcases cpe_name_new_attr_of s n h k with h0 | h1
  · rw [h0]
    exact Nat.zero_le _
  · rw [h1, as_str_attr_at]

theorem trim_colons_stop_ge (t : List Char) :
    ∀ d : Nat, 5 + d ≤ (CPE_SCHEMA ++ t).length →
      ∃ j, trim_colons_stop (CPE_SCHEMA ++ t) (5 + d) = some j ∧ 4 ≤ j := by
  intro d
  induction d with
  | zero =>
    intro _
    refine ⟨4, ?_, Nat.le_refl _⟩
    simp [trim_colons_stop, CPE_SCHEMA]
  | succ d ih =>
    intro hd
    have e : 5 + (d + 1) = (5 + d) + 1 := by omega
    rw [e, trim_colons_stop]
    split_ifs
    · exact ih (by omega)
    · exact ⟨5 + d, rfl, by omega⟩

theorem trim_colons_loop_stop (r : List Char) :
    ∀ i : Nat, trim_colons_loop r i = (trim_colons_stop r i).map (fun j => r.take (j + 1)) := by
  intro i
  induction i with
  | zero => rfl
  | succ i ih =>
    rw [trim_colons_loop, trim_colons_stop]
    split_ifs
    · exact ih
    · rfl

end CpeUri
